import Mathlib

/-!
Verification of the OSC 633 stream parser.

The source is a TypeScript module exposing `parse`, an incremental scanner
that splits a chunked text stream into plain-output runs and decoded
OSC 633 sequence events.  JavaScript strings are modelled as `List Char`,
`undefined | string` as `Option (List Char)`, and the async generator as a
pure function from the list of input fragments to the list of emitted
events.  Every definition below mirrors the corresponding source function.
-/

namespace OSC633

/-- Characters of the stream; JS strings are modelled as lists of characters. -/
abbrev Str := List Char

/-- The escape introducer byte, `"\x1b"` in the source. -/
def ESC : Char := Char.ofNat 27

/-- The string terminator byte (BEL), `"\x07"` in the source. -/
def ST : Char := Char.ofNat 7

/-- The fixed sequence-family prefix `ESC + "]633;"`. -/
def OSC633_START : Str := [ESC, ']', '6', '3', '3', ';']

/-- The event type (`Entry` in the source): a tagged union of the six
decoded sequence kinds, literal output runs, and the `Invalid` error value. -/
inductive Entry : Type where
  | promptStart : Entry
  | promptEnd : Entry
  | commandStart : Entry
  | commandEnd (exitCode : Option Str) : Entry
  | commandLine (command : Str) (nonce : Option Str) : Entry
  | propertyUpdate (name : Str) (value : Str) : Entry
  | output (value : Str) : Entry
  | invalid (sequence : Str) (oscType : Str) (parts : List Str) (message : String) : Entry
  deriving DecidableEq, Repr

/-- Recognizer for `Output` events. -/
def isOutput : Entry → Bool
  | .output _ => true
  | _ => false

/-- Recognizer for `Invalid` events. -/
def isInvalid : Entry → Bool
  | .invalid _ _ _ _ => true
  | _ => false

/-- JS `string.split(sep)` for a single-character separator: always returns at
least one (possibly empty) part. -/
def splitOn (sep : Char) : Str → List Str
  | [] => [[]]
  | c :: rest =>
    if c = sep then [] :: splitOn sep rest
    else
      match splitOn sep rest with
      | [] => [[c]]
      | part :: parts => (c :: part) :: parts

/-- JS `parts.join(sep)` for a single-character separator. -/
def joinSep (sep : Char) : List Str → Str
  | [] => []
  | [part] => part
  | part :: parts => part ++ sep :: joinSep sep parts

/-- The `Invalid` constructor: stores the reconstructed sequence text
`OSC633_START + parts.join(";") + ST`, the type identifier `parts[0] ?? ""`,
the raw parts, and the message. -/
def mkInvalid (parts : List Str) (message : String) : Entry :=
  Entry.invalid (OSC633_START ++ joinSep ';' parts ++ [ST]) (parts.headD []) parts message

/-- Fueled worker for `replaceAll`.  `fuel ≥ s.length` always suffices; the
explicit fuel keeps the recursion structural so that terms reduce in the
kernel.  The `pat ≠ []` guard only rules out the empty pattern, which never
occurs in the source. -/
def replaceAllAux (pat repl : Str) : Nat → Str → Str
  | 0, s => s
  | _ + 1, [] => []
  | fuel + 1, c :: rest =>
    if pat ≠ [] ∧ pat.isPrefixOf (c :: rest) then
      repl ++ replaceAllAux pat repl fuel ((c :: rest).drop pat.length)
    else
      c :: replaceAllAux pat repl fuel rest

/-- JS `value.replace(/pat/g, repl)` for a literal pattern: replace every
non-overlapping occurrence, scanning left to right, without rescanning the
replacement text. -/
def replaceAll (pat repl : Str) (s : Str) : Str := replaceAllAux pat repl s.length s

/-- `unescapeValue`: the three chained global substitutions, in source order —
`"\x3b"` (4 chars) to `';'`, then `"\x0a"` to newline, then `"\\"` to `'\'`. -/
def unescapeValue (value : Str) : Str :=
  replaceAll ['\\', '\\'] ['\\']
    (replaceAll ['\\', 'x', '0', 'a'] ['\n']
      (replaceAll ['\\', 'x', '3', 'b'] [';'] value))

/-- `parseCommandEnd`: exit code is `parts[1]`, verbatim, possibly absent. -/
def parseCommandEnd (parts : List Str) : Entry :=
  Entry.commandEnd parts[1]?

/-- `parseCommandLine`: command is `parts[1]` (unescaped), nonce `parts[2]`. -/
def parseCommandLine (parts : List Str) : Entry :=
  match parts[1]? with
  | none => mkInvalid parts "Missing command parameter"
  | some command => Entry.commandLine (unescapeValue command) parts[2]?

/-- `parsePropertyUpdate`: `parts[1]` must exist and contain `'='`; the name
(before the first `'='`) must be non-empty; the value is unescaped. -/
def parsePropertyUpdate (parts : List Str) : Entry :=
  match parts[1]? with
  | none => mkInvalid parts "Missing name-value parameter"
  | some propertyPart =>
    match propertyPart.findIdx? (· == '=') with
    | none => mkInvalid parts "Invalid property format: missing '='"
    | some equalIndex =>
      let name := propertyPart.take equalIndex
      if name = [] then mkInvalid parts "Missing property name"
      else Entry.propertyUpdate name (unescapeValue (propertyPart.drop (equalIndex + 1)))

/-- `parseSequence`: split the raw body on `';'` and dispatch on the first part. -/
def parseSequence (sequence : Str) : Entry :=
  let parts := splitOn ';' sequence
  let type := parts.headD []
  if type = ['A'] then Entry.promptStart
  else if type = ['B'] then Entry.promptEnd
  else if type = ['C'] then Entry.commandStart
  else if type = ['D'] then parseCommandEnd parts
  else if type = ['E'] then parseCommandLine parts
  else if type = ['P'] then parsePropertyUpdate parts
  else mkInvalid parts ("Unknown sequence type: " ++ String.mk type)

/-- `isPartialOSC633Start`: is `s` exactly a prefix of the family prefix
(compared only up to `s.length`)? -/
def isPartialOSC633Start (s : Str) : Bool := s == OSC633_START.take s.length

/-- The inner `while` loop of `parse`, processing `buffer` until it empties or
stalls on a partial/unterminated sequence.  It is generic in the two emitters
so that the same loop can also carry the raw consumed text alongside each
event (used by the input-accounting theorems); `processBuffer` instantiates it
exactly as the source does.  `fuel` bounds the number of iterations;
`buffer.length` always suffices since every iteration consumes at least one
character. -/
def scanAuxG {X : Type} (emitOut emitSeq : Str → X) : Nat → Str → Str → List X × Str × Str
  | 0, outputBuffer, buffer => ([], outputBuffer, buffer)
  | fuel + 1, outputBuffer, buffer =>
    if buffer = [] then ([], outputBuffer, buffer)
    else
      match buffer.findIdx? (· == ESC) with
      | none => ([], outputBuffer ++ buffer, [])
      | some escIndex =>
        if OSC633_START.isPrefixOf (buffer.drop escIndex) then
          match (buffer.drop escIndex).findIdx? (· == ST) with
          | none =>
            ([], if 0 < escIndex then outputBuffer ++ buffer.take escIndex else outputBuffer,
              buffer.drop escIndex)
          | some r =>
            let stIndex := escIndex + r
            let ob2 := if 0 < escIndex then outputBuffer ++ buffer.take escIndex else outputBuffer
            let flushed : List X := if 0 < ob2.length then [emitOut ob2] else []
            let ob3 : Str := if 0 < ob2.length then [] else ob2
            let sequence := (buffer.take stIndex).drop (escIndex + OSC633_START.length)
            let res := scanAuxG emitOut emitSeq fuel ob3 (buffer.drop (stIndex + 1))
            (flushed ++ emitSeq sequence :: res.1, res.2)
        else
          if isPartialOSC633Start (buffer.drop escIndex) then
            ([], if 0 < escIndex then outputBuffer ++ buffer.take escIndex else outputBuffer,
              buffer.drop escIndex)
          else
            scanAuxG emitOut emitSeq fuel (outputBuffer ++ buffer.take (escIndex + 1))
              (buffer.drop (escIndex + 1))

/-- One run of the inner loop with enough fuel. -/
def processBufferG {X : Type} (emitOut emitSeq : Str → X) (outputBuffer buffer : Str) :
    List X × Str × Str :=
  scanAuxG emitOut emitSeq buffer.length outputBuffer buffer

/-- The outer `for await` loop of `parse`: feed each chunk into the buffer, run
the inner loop, and on exhaustion flush any residual text as one final output. -/
def parseChunksG {X : Type} (emitOut emitSeq : Str → X) : List Str → Str → Str → List X
  | [], outputBuffer, buffer =>
    if 0 < outputBuffer.length ∨ 0 < buffer.length then [emitOut (outputBuffer ++ buffer)]
    else []
  | chunk :: rest, outputBuffer, buffer =>
    let res := processBufferG emitOut emitSeq outputBuffer (buffer ++ chunk)
    res.1 ++ parseChunksG emitOut emitSeq rest res.2.1 res.2.2

/-- The inner loop exactly as in the source, emitting `Entry` values. -/
def processBuffer (outputBuffer buffer : Str) : List Entry × Str × Str :=
  processBufferG Entry.output parseSequence outputBuffer buffer

/-- `parse`: the whole scanner, from the list of input fragments to the list
of emitted events. -/
def parse (chunks : List Str) : List Entry :=
  parseChunksG Entry.output parseSequence chunks [] []

/-- Instrumented output emitter: an `Output` event paired with the exact text
it accounts for (its own value). -/
def emitOutR (s : Str) : Entry × Str := (Entry.output s, s)

/-- Instrumented sequence emitter: the decoded event paired with the original
wire text of the sequence as scanned (`OSC633_START ++ body ++ [ST]`). -/
def emitSeqR (s : Str) : Entry × Str := (parseSequence s, OSC633_START ++ s ++ [ST])

/-- The scanner instrumented to carry, with every event, the input text the
event accounts for. -/
def parseR (chunks : List Str) : List (Entry × Str) :=
  parseChunksG emitOutR emitSeqR chunks [] []

/-- The text a produced event accounts for, as described by the spec: an
`Output`'s own value, an `Invalid`'s reconstructed `sequence` field, and for
well-formed sequence events the original wire text carried alongside. -/
def entryTextR : Entry × Str → Str
  | (.output v, _) => v
  | (.invalid s _ _ _, _) => s
  | (_, raw) => raw

/-- Does `pat` occur as a contiguous substring of the second argument? -/
def containsSub (pat : Str) : Str → Bool
  | [] => pat.isEmpty
  | c :: rest => pat.isPrefixOf (c :: rest) || containsSub pat rest

/-- The unescaping as the spec's wording describes it: the three substitutions
decided independently on the original text — equivalently a single left-to-right
pass trying, at each position, the escaped-semicolon marker, then the
escaped-newline marker, then the doubled backslash, never re-reading replaced
text.  (Worker with explicit fuel; `s.length` always suffices.) -/
def unescapeSpecAux : Nat → Str → Str
  | 0, s => s
  | _ + 1, [] => []
  | fuel + 1, c :: rest =>
    if ['\\', 'x', '3', 'b'].isPrefixOf (c :: rest) then
      ';' :: unescapeSpecAux fuel ((c :: rest).drop 4)
    else if ['\\', 'x', '0', 'a'].isPrefixOf (c :: rest) then
      '\n' :: unescapeSpecAux fuel ((c :: rest).drop 4)
    else if ['\\', '\\'].isPrefixOf (c :: rest) then
      '\\' :: unescapeSpecAux fuel ((c :: rest).drop 2)
    else c :: unescapeSpecAux fuel rest

/-- Single-pass unescaping, per the spec's wording (see `unescapeSpecAux`). -/
def unescapeValueSpec (s : Str) : Str := unescapeSpecAux s.length s

/-- Continuation combinator: the result of resuming a stalled scan after more
text arrives (used only to state the append law below). -/
def contG {X : Type} (eo es : Str → X) (r : List X × Str × Str) (extra : Str) :
    List X × Str × Str :=
  (r.1 ++ (processBufferG eo es r.2.1 (r.2.2 ++ extra)).1,
    (processBufferG eo es r.2.1 (r.2.2 ++ extra)).2)

/-- The reconstruction of wire text from an event's own fields, as the spec's
round-trip wording describes it: an `Output`'s value, an `Invalid`'s stored
`sequence`, and for well-formed events the escape prefix, the decoded fields
rejoined with `';'`, and the terminator. -/
def reconstructEntry : Entry → Str
  | .output v => v
  | .invalid s _ _ _ => s
  | .promptStart => OSC633_START ++ joinSep ';' [['A']] ++ [ST]
  | .promptEnd => OSC633_START ++ joinSep ';' [['B']] ++ [ST]
  | .commandStart => OSC633_START ++ joinSep ';' [['C']] ++ [ST]
  | .commandEnd none => OSC633_START ++ joinSep ';' [['D']] ++ [ST]
  | .commandEnd (some ec) => OSC633_START ++ joinSep ';' [['D'], ec] ++ [ST]
  | .commandLine cmd none => OSC633_START ++ joinSep ';' [['E'], cmd] ++ [ST]
  | .commandLine cmd (some nonce) => OSC633_START ++ joinSep ';' [['E'], cmd, nonce] ++ [ST]
  | .propertyUpdate n v => OSC633_START ++ joinSep ';' [['P'], n ++ '=' :: v] ++ [ST]

/-- Shape of the event list produced by one run of the inner loop: a sequence
of blocks, each an optional non-empty `Output` flush immediately followed by a
non-`Output` sequence event.  Captures that mid-stream output is only ever
emitted, coalesced and non-empty, right before a sequence event. -/
inductive Blocks : List Entry → Prop where
  | nil : Blocks []
  | seq (e : Entry) (he : isOutput e = false) {rest : List Entry} (hr : Blocks rest) :
      Blocks (e :: rest)
  | outseq (v : Str) (hv : v ≠ []) (e : Entry) (he : isOutput e = false) {rest : List Entry}
      (hr : Blocks rest) : Blocks (Entry.output v :: e :: rest)

/-! ### Fuel congruence and unfolding equations -/

theorem replaceAllAux_congr (pat repl : Str) :
    ∀ f₁ f₂ s, s.length ≤ f₁ → s.length ≤ f₂ →
      replaceAllAux pat repl f₁ s = replaceAllAux pat repl f₂ s := by
  intro f₁
  induction f₁ with
  | zero =>
    intro f₂ s h₁ _
    have hs : s = [] := List.eq_nil_of_length_eq_zero (Nat.le_zero.mp h₁)
    subst hs
    cases f₂ <;> simp [replaceAllAux]
  | succ f₁ ih =>
    intro f₂ s h₁ h₂
    cases s with
    | nil => cases f₂ <;> simp [replaceAllAux]
    | cons c rest =>
      cases f₂ with
      | zero => simp at h₂
      | succ f₂ =>
        simp only [replaceAllAux]
        by_cases h : pat ≠ [] ∧ pat.isPrefixOf (c :: rest)
        · have hp : 1 ≤ pat.length := by
            cases pat with
            | nil => exact absurd rfl h.1
            | cons _ _ => simp
          simp only [if_pos h]
          have hlen : ((c :: rest).drop pat.length).length ≤ f₁ := by
            simp only [List.length_drop, List.length_cons]
            simp only [List.length_cons] at h₁
            omega
          have hlen₂ : ((c :: rest).drop pat.length).length ≤ f₂ := by
            simp only [List.length_drop, List.length_cons]
            simp only [List.length_cons] at h₂
            omega
          rw [ih f₂ _ hlen hlen₂]
        · simp only [if_neg h]
          have hl₁ : rest.length ≤ f₁ := by simp only [List.length_cons] at h₁; omega
          have hl₂ : rest.length ≤ f₂ := by simp only [List.length_cons] at h₂; omega
          rw [ih f₂ _ hl₁ hl₂]

theorem replaceAll_nil (pat repl : Str) : replaceAll pat repl [] = [] := rfl

theorem replaceAll_cons (pat repl : Str) (c : Char) (rest : Str) :
    replaceAll pat repl (c :: rest) =
      if pat ≠ [] ∧ pat.isPrefixOf (c :: rest) then
        repl ++ replaceAll pat repl ((c :: rest).drop pat.length)
      else c :: replaceAll pat repl rest := by
  show replaceAllAux pat repl (rest.length + 1) (c :: rest) = _
  simp only [replaceAllAux]
  by_cases h : pat ≠ [] ∧ pat.isPrefixOf (c :: rest)
  · have hp : 1 ≤ pat.length := by
      cases pat with
      | nil => exact absurd rfl h.1
      | cons _ _ => simp
    simp only [if_pos h]
    rw [replaceAllAux_congr pat repl rest.length ((c :: rest).drop pat.length).length _
      (by simp only [List.length_drop, List.length_cons]; omega) (Nat.le_refl _)]
    rfl
  · simp only [if_neg h]
    rfl

theorem unescapeSpecAux_congr :
    ∀ f₁ f₂ s, s.length ≤ f₁ → s.length ≤ f₂ →
      unescapeSpecAux f₁ s = unescapeSpecAux f₂ s := by
  intro f₁
  induction f₁ with
  | zero =>
    intro f₂ s h₁ _
    have hs : s = [] := List.eq_nil_of_length_eq_zero (Nat.le_zero.mp h₁)
    subst hs
    cases f₂ <;> simp [unescapeSpecAux]
  | succ f₁ ih =>
    intro f₂ s h₁ h₂
    cases s with
    | nil => cases f₂ <;> simp [unescapeSpecAux]
    | cons c rest =>
      cases f₂ with
      | zero => simp at h₂
      | succ f₂ =>
        simp only [List.length_cons] at h₁ h₂
        simp only [unescapeSpecAux]
        split
        · rw [ih f₂ _ (by simp [List.length_drop]; omega) (by simp [List.length_drop]; omega)]
        · split
          · rw [ih f₂ _ (by simp [List.length_drop]; omega) (by simp [List.length_drop]; omega)]
          · split
            · rw [ih f₂ _ (by simp [List.length_drop]; omega)
                (by simp [List.length_drop]; omega)]
            · rw [ih f₂ _ (by omega) (by omega)]

theorem unescapeValueSpec_cons (c : Char) (rest : Str) :
    unescapeValueSpec (c :: rest) =
      if ['\\', 'x', '3', 'b'].isPrefixOf (c :: rest) then
        ';' :: unescapeValueSpec ((c :: rest).drop 4)
      else if ['\\', 'x', '0', 'a'].isPrefixOf (c :: rest) then
        '\n' :: unescapeValueSpec ((c :: rest).drop 4)
      else if ['\\', '\\'].isPrefixOf (c :: rest) then
        '\\' :: unescapeValueSpec ((c :: rest).drop 2)
      else c :: unescapeValueSpec rest := by
  show unescapeSpecAux (rest.length + 1) (c :: rest) = _
  simp only [unescapeSpecAux]
  split
  · rw [unescapeSpecAux_congr rest.length ((c :: rest).drop 4).length _
      (by simp [List.length_drop]) (Nat.le_refl _)]
    rfl
  · split
    · rw [unescapeSpecAux_congr rest.length ((c :: rest).drop 4).length _
        (by simp [List.length_drop]) (Nat.le_refl _)]
      rfl
    · split
      · rw [unescapeSpecAux_congr rest.length ((c :: rest).drop 2).length _
          (by simp [List.length_drop]) (Nat.le_refl _)]
        rfl
      · rfl

theorem OSC633_START_length : OSC633_START.length = 6 := rfl

theorem take_guard (ob l : Str) (e : Nat) :
    (if 0 < e then ob ++ l.take e else ob) = ob ++ l.take e := by
  cases e with
  | zero => simp
  | succ e => simp

theorem flush_guard {X : Type} (f : Str → X) (l : Str) :
    (if 0 < l.length then [f l] else []) = (if l = [] then [] else [f l]) := by
  cases l <;> simp

theorem guard_clear (l : Str) : (if 0 < l.length then ([] : Str) else l) = [] := by
  cases l <;> simp

theorem scanAuxG_congr {X : Type} (eo es : Str → X) :
    ∀ f₁ f₂ buf, buf.length ≤ f₁ → buf.length ≤ f₂ →
      ∀ ob, scanAuxG eo es f₁ ob buf = scanAuxG eo es f₂ ob buf := by
  intro f₁
  induction f₁ with
  | zero =>
    intro f₂ buf h₁ _ ob
    have hb : buf = [] := List.eq_nil_of_length_eq_zero (Nat.le_zero.mp h₁)
    subst hb
    cases f₂ <;> simp [scanAuxG]
  | succ f₁ ih =>
    intro f₂ buf h₁ h₂ ob
    cases f₂ with
    | zero =>
      have hb : buf = [] := List.eq_nil_of_length_eq_zero (Nat.le_zero.mp h₂)
      subst hb
      simp [scanAuxG]
    | succ f₂ =>
      by_cases hb : buf = []
      · subst hb; simp [scanAuxG]
      · have hpos : 0 < buf.length := List.length_pos.mpr hb
        simp only [scanAuxG, if_neg hb]
        cases he : buf.findIdx? (· == ESC) with
        | none => rfl
        | some e =>
          simp only []
          by_cases hp : OSC633_START.isPrefixOf (buf.drop e) = true
          · simp only [hp, if_true]
            cases hst : (buf.drop e).findIdx? (· == ST) with
            | none => rfl
            | some r =>
              simp only []
              rw [ih f₂ (buf.drop (e + r + 1))
                (by simp only [List.length_drop]; omega)
                (by simp only [List.length_drop]; omega)]
          · simp only [hp, if_false, Bool.false_eq_true]
            by_cases hpart : isPartialOSC633Start (buf.drop e) = true
            · simp only [hpart, if_true]
            · simp only [hpart, if_false, Bool.false_eq_true]
              rw [ih f₂ (buf.drop (e + 1))
                (by simp only [List.length_drop]; omega)
                (by simp only [List.length_drop]; omega)]

theorem findIdx?_some_ne_nil {p : Char → Bool} {buf : Str} {e : Nat}
    (he : buf.findIdx? p = some e) : buf ≠ [] := by
  intro h; subst h; simp at he

theorem pbG_nil {X : Type} (eo es : Str → X) (ob : Str) :
    processBufferG eo es ob [] = ([], ob, []) := rfl

theorem pbG_noesc {X : Type} (eo es : Str → X) (ob buf : Str) (hb : buf ≠ [])
    (he : buf.findIdx? (· == ESC) = none) :
    processBufferG eo es ob buf = ([], ob ++ buf, []) := by
  have hlen : buf.length = (buf.length - 1) + 1 := by
    have := List.length_pos.mpr hb; omega
  rw [processBufferG, hlen]
  simp only [scanAuxG, if_neg hb, he]

theorem pbG_noST {X : Type} (eo es : Str → X) (ob buf : Str) {e : Nat}
    (he : buf.findIdx? (· == ESC) = some e)
    (hp : OSC633_START.isPrefixOf (buf.drop e) = true)
    (hst : (buf.drop e).findIdx? (· == ST) = none) :
    processBufferG eo es ob buf = ([], ob ++ buf.take e, buf.drop e) := by
  have hb := findIdx?_some_ne_nil he
  have hlen : buf.length = (buf.length - 1) + 1 := by
    have := List.length_pos.mpr hb; omega
  rw [processBufferG, hlen]
  simp only [scanAuxG, if_neg hb, he, hp, if_true, hst]
  rw [take_guard]

theorem pbG_stall {X : Type} (eo es : Str → X) (ob buf : Str) {e : Nat}
    (he : buf.findIdx? (· == ESC) = some e)
    (hp : ¬ OSC633_START.isPrefixOf (buf.drop e) = true)
    (hpart : isPartialOSC633Start (buf.drop e) = true) :
    processBufferG eo es ob buf = ([], ob ++ buf.take e, buf.drop e) := by
  have hb := findIdx?_some_ne_nil he
  have hlen : buf.length = (buf.length - 1) + 1 := by
    have := List.length_pos.mpr hb; omega
  rw [processBufferG, hlen]
  simp only [scanAuxG, if_neg hb, he, hp, if_false, Bool.false_eq_true, hpart, if_true]
  rw [take_guard]

theorem pbG_skip {X : Type} (eo es : Str → X) (ob buf : Str) {e : Nat}
    (he : buf.findIdx? (· == ESC) = some e)
    (hp : ¬ OSC633_START.isPrefixOf (buf.drop e) = true)
    (hpart : ¬ isPartialOSC633Start (buf.drop e) = true) :
    processBufferG eo es ob buf =
      processBufferG eo es (ob ++ buf.take (e + 1)) (buf.drop (e + 1)) := by
  have hb := findIdx?_some_ne_nil he
  have hpos : 0 < buf.length := List.length_pos.mpr hb
  have hlen : buf.length = (buf.length - 1) + 1 := by omega
  rw [processBufferG, hlen]
  simp only [scanAuxG, if_neg hb, he, hp, if_false, Bool.false_eq_true, hpart]
  rw [processBufferG]
  exact scanAuxG_congr eo es _ _ _
    (by simp only [List.length_drop]; omega)
    (by simp only [List.length_drop]; omega) _

theorem pbG_seq {X : Type} (eo es : Str → X) (ob buf : Str) {e r : Nat}
    (he : buf.findIdx? (· == ESC) = some e)
    (hp : OSC633_START.isPrefixOf (buf.drop e) = true)
    (hst : (buf.drop e).findIdx? (· == ST) = some r) :
    processBufferG eo es ob buf =
      ((if ob ++ buf.take e = [] then [] else [eo (ob ++ buf.take e)]) ++
        es ((buf.take (e + r)).drop (e + 6)) ::
          (processBufferG eo es [] (buf.drop (e + r + 1))).1,
        (processBufferG eo es [] (buf.drop (e + r + 1))).2) := by
  have hb := findIdx?_some_ne_nil he
  have hpos : 0 < buf.length := List.length_pos.mpr hb
  have hlen : buf.length = (buf.length - 1) + 1 := by omega
  rw [processBufferG, hlen]
  simp only [scanAuxG, if_neg hb, he, hp, if_true, hst]
  rw [take_guard, flush_guard, guard_clear, OSC633_START_length]
  rw [processBufferG]
  rw [scanAuxG_congr eo es (buf.length - 1) (buf.drop (e + r + 1)).length
    (buf.drop (e + r + 1))
    (by simp only [List.length_drop]; omega) (Nat.le_refl _) []]

/-! ### Structure of `splitOn` and `joinSep` -/

theorem splitOn_ne_nil (sep : Char) (s : Str) : splitOn sep s ≠ [] := by
  induction s with
  | nil => simp [splitOn]
  | cons c rest ih =>
    by_cases hc : c = sep
    · simp [splitOn, hc]
    · simp only [splitOn, if_neg hc]
      cases h : splitOn sep rest <;> simp

theorem joinSep_splitOn (sep : Char) (s : Str) : joinSep sep (splitOn sep s) = s := by
  induction s with
  | nil => rfl
  | cons c rest ih =>
    by_cases hc : c = sep
    · subst hc
      simp only [splitOn, if_pos rfl]
      cases h : splitOn c rest with
      | nil => exact absurd h (splitOn_ne_nil c rest)
      | cons a b =>
        simp only [joinSep, List.nil_append]
        rw [← h, ih]
    · simp only [splitOn, if_neg hc]
      cases h : splitOn sep rest with
      | nil => exact absurd h (splitOn_ne_nil sep rest)
      | cons a b =>
        cases b with
        | nil =>
          simp only [joinSep]
          have ha := ih
          rw [h] at ha
          simp only [joinSep] at ha
          rw [ha]
        | cons b1 b2 =>
          simp only [joinSep]
          have ha := ih
          rw [h] at ha
          simp only [joinSep] at ha
          rw [List.cons_append, ha]

theorem splitOn_single (sep : Char) (f : Str) (h : sep ∉ f) : splitOn sep f = [f] := by
  induction f with
  | nil => rfl
  | cons c rest ih =>
    have hc : ¬ c = sep := fun hcc => h (hcc ▸ List.mem_cons_self c rest)
    have hrest : sep ∉ rest := fun hm => h (List.mem_cons_of_mem c hm)
    simp only [splitOn, if_neg hc, ih hrest]

theorem splitOn_field_cons (sep : Char) (f t : Str) (h : sep ∉ f) :
    splitOn sep (f ++ sep :: t) = f :: splitOn sep t := by
  induction f with
  | nil => simp [splitOn]
  | cons c rest ih =>
    have hc : ¬ c = sep := fun hcc => h (hcc ▸ List.mem_cons_self c rest)
    have hrest : sep ∉ rest := fun hm => h (List.mem_cons_of_mem c hm)
    simp only [List.cons_append, splitOn, if_neg hc, List.append_eq, ih hrest]

/-- A head field equal to `f` (with no separator inside `f`) means the body is
either exactly `f` or `f` followed by a separator and a remainder. -/
theorem splitOn_headD_structure (sep : Char) (body f : Str)
    (h : (splitOn sep body).headD [] = f) :
    body = f ∨ ∃ t, body = f ++ sep :: t := by
  cases hs : splitOn sep body with
  | nil => exact absurd hs (splitOn_ne_nil sep body)
  | cons p rest =>
    have hp : p = f := by rw [hs] at h; simpa using h
    subst hp
    have hj := joinSep_splitOn sep body
    rw [hs] at hj
    cases rest with
    | nil =>
      left
      simp only [joinSep] at hj
      exact hj.symm
    | cons x xs =>
      right
      simp only [joinSep] at hj
      exact ⟨joinSep sep (x :: xs), hj.symm⟩

theorem mem_of_findIdx?_eq_none {p : Char → Bool} {l : Str} (h : ∀ c ∈ l, ¬ p c = true) :
    l.findIdx? p = none :=
  List.findIdx?_eq_none_iff.mpr fun c hc => by
    have := h c hc
    simpa using this

theorem not_eq_mem_beq_none {l : Str} {a : Char} (h : a ∉ l) :
    l.findIdx? (· == a) = none :=
  mem_of_findIdx?_eq_none fun c hc hbeq => h (by
    have hca : c = a := by simpa using hbeq
    exact hca ▸ hc)

/-! ### Dispatch of `parseSequence` on the type identifier -/

theorem parseSequence_headD_A (body : Str) (h : (splitOn ';' body).headD [] = ['A']) :
    parseSequence body = Entry.promptStart := by
  rw [List.headD_eq_head?_getD] at h
  simp [parseSequence, h]

theorem parseSequence_headD_B (body : Str) (h : (splitOn ';' body).headD [] = ['B']) :
    parseSequence body = Entry.promptEnd := by
  rw [List.headD_eq_head?_getD] at h
  simp [parseSequence, h]

theorem parseSequence_headD_C (body : Str) (h : (splitOn ';' body).headD [] = ['C']) :
    parseSequence body = Entry.commandStart := by
  rw [List.headD_eq_head?_getD] at h
  simp [parseSequence, h]

theorem parseSequence_headD_D (body : Str) (h : (splitOn ';' body).headD [] = ['D']) :
    parseSequence body = parseCommandEnd (splitOn ';' body) := by
  rw [List.headD_eq_head?_getD] at h
  simp [parseSequence, h]

theorem parseSequence_headD_E (body : Str) (h : (splitOn ';' body).headD [] = ['E']) :
    parseSequence body = parseCommandLine (splitOn ';' body) := by
  rw [List.headD_eq_head?_getD] at h
  simp [parseSequence, h]

theorem parseSequence_headD_P (body : Str) (h : (splitOn ';' body).headD [] = ['P']) :
    parseSequence body = parsePropertyUpdate (splitOn ';' body) := by
  rw [List.headD_eq_head?_getD] at h
  simp [parseSequence, h]

theorem parseSequence_headD_other (body ty : Str)
    (h : (splitOn ';' body).headD [] = ty)
    (h2 : ty ∉ ([['A'], ['B'], ['C'], ['D'], ['E'], ['P']] : List Str)) :
    parseSequence body =
      mkInvalid (splitOn ';' body) ("Unknown sequence type: " ++ String.mk ty) := by
  simp only [List.mem_cons, List.not_mem_nil, or_false, not_or] at h2
  obtain ⟨hA, hB, hC, hD, hE, hP⟩ := h2
  simp only [parseSequence, h]
  rw [if_neg hA, if_neg hB, if_neg hC, if_neg hD, if_neg hE, if_neg hP]

theorem splitOn_cons_field (c : Char) (t : Str) (hc : ¬ c = ';') :
    splitOn ';' (c :: ';' :: t) = [c] :: splitOn ';' t := by
  have := splitOn_field_cons ';' [c] t (by
    simp only [List.mem_singleton]
    exact fun h => hc h.symm)
  simpa using this

theorem parsePropertyUpdate_noEq (pp : Str) (l' : List Str) (h : '=' ∉ pp) :
    parsePropertyUpdate (['P'] :: pp :: l') =
      mkInvalid (['P'] :: pp :: l') "Invalid property format: missing '='" := by
  simp only [parsePropertyUpdate, List.getElem?_cons_succ, List.getElem?_cons_zero]
  rw [not_eq_mem_beq_none h]

theorem parsePropertyUpdate_emptyName (v : Str) (l' : List Str) :
    parsePropertyUpdate (['P'] :: ('=' :: v) :: l') =
      mkInvalid (['P'] :: ('=' :: v) :: l') "Missing property name" := by
  simp [parsePropertyUpdate, List.findIdx?_cons]

theorem parsePropertyUpdate_named (n v : Str) (l' : List Str) (hn : n ≠ [])
    (hne : '=' ∉ n) :
    parsePropertyUpdate (['P'] :: (n ++ '=' :: v) :: l') =
      Entry.propertyUpdate n (unescapeValue v) := by
  have hidx : (n ++ '=' :: v).findIdx? (· == '=') = some n.length := by
    rw [List.findIdx?_append, not_eq_mem_beq_none hne]
    simp
  simp only [parsePropertyUpdate, List.getElem?_cons_succ, List.getElem?_cons_zero, hidx]
  rw [List.take_append_of_le_length (Nat.le_refl _), List.take_length,
    if_neg hn, List.drop_append (i := 1)]
  rfl

/-- C4: decoding a `P` body — missing second part, missing `'='`, empty name,
and the successful case with the name verbatim and the value unescaped (any
further `'='` stays in the value). -/
theorem propertyUpdate_decode_spec :
    (∀ body, (splitOn ';' body).headD [] = ['P'] →
      body = ['P'] ∨ ∃ t, body = 'P' :: ';' :: t) ∧
    (parseSequence ['P'] = mkInvalid [['P']] "Missing name-value parameter") ∧
    (∀ t, '=' ∉ (splitOn ';' t).headD [] →
      parseSequence ('P' :: ';' :: t) =
        mkInvalid (['P'] :: splitOn ';' t) "Invalid property format: missing '='") ∧
    (∀ t v, (splitOn ';' t).headD [] = '=' :: v →
      parseSequence ('P' :: ';' :: t) =
        mkInvalid (['P'] :: splitOn ';' t) "Missing property name") ∧
    (∀ t n v, (splitOn ';' t).headD [] = n ++ '=' :: v → n ≠ [] → '=' ∉ n →
      parseSequence ('P' :: ';' :: t) = Entry.propertyUpdate n (unescapeValue v)) := by
  refine ⟨?_, by decide, ?_, ?_, ?_⟩
  · intro body h
    rcases splitOn_headD_structure ';' body ['P'] h with h1 | ⟨t, h2⟩
    · exact Or.inl h1
    · exact Or.inr ⟨t, by simpa using h2⟩
  · intro t h
    have hsplit := splitOn_cons_field 'P' t (by decide)
    cases hpp : splitOn ';' t with
    | nil => exact absurd hpp (splitOn_ne_nil ';' t)
    | cons pp l' =>
      rw [hpp] at hsplit h
      simp only [List.headD_cons] at h
      rw [parseSequence_headD_P _ (by rw [hsplit]; rfl), hsplit]
      exact parsePropertyUpdate_noEq pp l' h
  · intro t v h
    have hsplit := splitOn_cons_field 'P' t (by decide)
    cases hpp : splitOn ';' t with
    | nil => exact absurd hpp (splitOn_ne_nil ';' t)
    | cons pp l' =>
      rw [hpp] at hsplit h
      simp only [List.headD_cons] at h
      subst h
      rw [parseSequence_headD_P _ (by rw [hsplit]; rfl), hsplit]
      exact parsePropertyUpdate_emptyName v l'
  · intro t n v h hn hne
    have hsplit := splitOn_cons_field 'P' t (by decide)
    cases hpp : splitOn ';' t with
    | nil => exact absurd hpp (splitOn_ne_nil ';' t)
    | cons pp l' =>
      rw [hpp] at hsplit h
      simp only [List.headD_cons] at h
      subst h
      rw [parseSequence_headD_P _ (by rw [hsplit]; rfl), hsplit]
      exact parsePropertyUpdate_named n v l' hn hne

/-- C4 witness: the four hypothesised cases at concrete inputs. -/
theorem propertyUpdate_decode_spec_witness :
    parseSequence ('P' :: ';' :: ['C', 'w', 'd']) =
      mkInvalid [['P'], ['C', 'w', 'd']] "Invalid property format: missing '='" ∧
    parseSequence ('P' :: ';' :: ['=', 'v']) =
      mkInvalid [['P'], ['=', 'v']] "Missing property name" ∧
    parseSequence ('P' :: ';' :: ['C', '=', 'a', '=', 'b']) =
      Entry.propertyUpdate ['C'] ['a', '=', 'b'] := by
  refine ⟨?_, ?_, ?_⟩
  · have h := propertyUpdate_decode_spec.2.2.1 ['C', 'w', 'd'] (by decide)
    rw [h]; decide
  · have h := propertyUpdate_decode_spec.2.2.2.1 ['=', 'v'] ['v'] (by decide)
    rw [h]; decide
  · have h := propertyUpdate_decode_spec.2.2.2.2 ['C', '=', 'a', '=', 'b'] ['C'] ['a', '=', 'b']
      (by decide) (by decide) (by decide)
    rw [h]; decide

theorem parseCommandLine_cons (cmd : Str) (ns : List Str) :
    parseCommandLine (['E'] :: cmd :: ns) = Entry.commandLine (unescapeValue cmd) ns.head? := by
  simp only [parseCommandLine, List.getElem?_cons_succ, List.getElem?_cons_zero,
    List.head?_eq_getElem?]

/-- C5: decoding an `E` body — fails with the specified `Invalid` exactly when
the second part is absent; otherwise the command is the second part unescaped
and the nonce is the third part verbatim (absent when missing). -/
theorem commandLine_decode_spec :
    (∀ body, (splitOn ';' body).headD [] = ['E'] →
      body = ['E'] ∨ ∃ t, body = 'E' :: ';' :: t) ∧
    (parseSequence ['E'] =
      Entry.invalid (OSC633_START ++ ['E'] ++ [ST]) ['E'] [['E']] "Missing command parameter") ∧
    (∀ t cmd ns, splitOn ';' t = cmd :: ns →
      parseSequence ('E' :: ';' :: t) = Entry.commandLine (unescapeValue cmd) ns.head?) ∧
    (∀ body, (splitOn ';' body).headD [] = ['E'] →
      (isInvalid (parseSequence body) = true ↔ body = ['E'])) := by
  have hcons : ∀ t cmd ns, splitOn ';' t = cmd :: ns →
      parseSequence ('E' :: ';' :: t) = Entry.commandLine (unescapeValue cmd) ns.head? := by
    intro t cmd ns hsp
    have hsplit := splitOn_cons_field 'E' t (by decide)
    rw [hsp] at hsplit
    rw [parseSequence_headD_E _ (by rw [hsplit]; rfl), hsplit]
    exact parseCommandLine_cons cmd ns
  refine ⟨?_, by decide, hcons, ?_⟩
  · intro body h
    rcases splitOn_headD_structure ';' body ['E'] h with h1 | ⟨t, h2⟩
    · exact Or.inl h1
    · exact Or.inr ⟨t, by simpa using h2⟩
  · intro body h
    constructor
    · intro hinv
      rcases splitOn_headD_structure ';' body ['E'] h with h1 | ⟨t, h2⟩
      · exact h1
      · exfalso
        have h2' : body = 'E' :: ';' :: t := by simpa using h2
        subst h2'
        cases hsp : splitOn ';' t with
        | nil => exact absurd hsp (splitOn_ne_nil ';' t)
        | cons cmd ns =>
          rw [hcons t cmd ns hsp] at hinv
          simp [isInvalid] at hinv
    · intro heq
      subst heq
      decide

/-- C5 witness: the hypothesised cases at concrete inputs. -/
theorem commandLine_decode_spec_witness :
    parseSequence ('E' :: ';' :: ['h', 'i']) = Entry.commandLine ['h', 'i'] none ∧
    (isInvalid (parseSequence ['E']) = true ↔ (['E'] : Str) = ['E']) := by
  constructor
  · have h := commandLine_decode_spec.2.2.1 ['h', 'i'] ['h', 'i'] [] (by decide)
    rw [h]; decide
  · exact commandLine_decode_spec.2.2.2 ['E'] (by decide)

theorem parseCommandEnd_cons (ec : Str) (ns : List Str) :
    parseCommandEnd (['D'] :: ec :: ns) = Entry.commandEnd (some ec) := by
  simp [parseCommandEnd]

/-- C9: `A`/`B`/`C` bodies decode to the zero-payload events with extra parts
ignored; `D` copies the second part verbatim as the exit code (absent when
missing); any other identifier, the empty one included, yields the
unknown-type `Invalid`. -/
theorem sequence_types_decode_spec :
    (∀ body, (splitOn ';' body).headD [] = ['A'] → parseSequence body = Entry.promptStart) ∧
    (∀ body, (splitOn ';' body).headD [] = ['B'] → parseSequence body = Entry.promptEnd) ∧
    (∀ body, (splitOn ';' body).headD [] = ['C'] → parseSequence body = Entry.commandStart) ∧
    (parseSequence ['D'] = Entry.commandEnd none) ∧
    (∀ t ec ns, splitOn ';' t = ec :: ns →
      parseSequence ('D' :: ';' :: t) = Entry.commandEnd (some ec)) ∧
    (∀ body ty, (splitOn ';' body).headD [] = ty →
      ty ∉ ([['A'], ['B'], ['C'], ['D'], ['E'], ['P']] : List Str) →
      parseSequence body =
        mkInvalid (splitOn ';' body) ("Unknown sequence type: " ++ String.mk ty)) := by
  refine ⟨parseSequence_headD_A, parseSequence_headD_B, parseSequence_headD_C,
    by decide, ?_, parseSequence_headD_other⟩
  intro t ec ns hsp
  have hsplit := splitOn_cons_field 'D' t (by decide)
  rw [hsp] at hsplit
  rw [parseSequence_headD_D _ (by rw [hsplit]; rfl), hsplit]
  exact parseCommandEnd_cons ec ns

/-- C9 witness: the hypothesised cases at concrete inputs. -/
theorem sequence_types_decode_spec_witness :
    parseSequence ['A', ';', 'x'] = Entry.promptStart ∧
    parseSequence ('D' :: ';' :: ['0']) = Entry.commandEnd (some ['0']) ∧
    parseSequence ['X', ';', 'f'] = mkInvalid [['X'], ['f']] "Unknown sequence type: X" := by
  refine ⟨sequence_types_decode_spec.1 ['A', ';', 'x'] (by decide), ?_, ?_⟩
  · have h := sequence_types_decode_spec.2.2.2.2.1 ['0'] ['0'] [] (by decide)
    rw [h]
  · have h := sequence_types_decode_spec.2.2.2.2.2 ['X', ';', 'f'] ['X'] (by decide) (by decide)
    rw [h]; decide

/-- C10: an empty field is present, not absent — `"E;"` decodes to a
`CommandLine` with empty command, `"D;"` to a `CommandEnd` with empty (not
absent) exit code, and `"P;"` fails with the missing-`'='` reason, not the
missing-parameter one. -/
theorem empty_field_present_spec :
    parse [OSC633_START ++ ['E', ';'] ++ [ST]] = [Entry.commandLine [] none] ∧
    parse [OSC633_START ++ ['D', ';'] ++ [ST]] = [Entry.commandEnd (some [])] ∧
    parse [OSC633_START ++ ['P', ';'] ++ [ST]] =
      [Entry.invalid (OSC633_START ++ ['P', ';'] ++ [ST]) ['P'] [['P'], []]
        "Invalid property format: missing '='"] := by
  decide

theorem isPrefixOf_structure {p t : Str} (h : p.isPrefixOf t = true) :
    ∃ rest, t = p ++ rest := by
  have hp : p <+: t := List.isPrefixOf_iff_prefix.mp h
  obtain ⟨r, hr⟩ := hp
  exact ⟨r, hr.symm⟩

/-- C6: completion — on source exhaustion, residual text in the accumulator or
the buffer is flushed as exactly one `Output` event holding their concatenation
(accumulator first); an unterminated sequence at end of source therefore comes
out as literal `Output`, never as `Invalid`; with both buffers empty nothing is
emitted. -/
theorem completion_spec :
    (∀ ob buf : Str, ¬ (ob = [] ∧ buf = []) →
      parseChunksG Entry.output parseSequence [] ob buf = [Entry.output (ob ++ buf)]) ∧
    (parseChunksG Entry.output parseSequence [] [] [] = []) ∧
    (∀ t, OSC633_START.isPrefixOf t = true → ST ∉ t → parse [t] = [Entry.output t]) := by
  refine ⟨?_, rfl, ?_⟩
  · intro ob buf h
    have hor : 0 < ob.length ∨ 0 < buf.length := by
      rcases not_and_or.mp h with h1 | h1
      · exact Or.inl (List.length_pos.mpr h1)
      · exact Or.inr (List.length_pos.mpr h1)
    simp only [parseChunksG]
    rw [if_pos hor]
  · intro t hp hst
    obtain ⟨rest, hrest⟩ := isPrefixOf_structure hp
    have hesc : t.findIdx? (· == ESC) = some 0 := by
      rw [hrest]
      simp [OSC633_START, List.findIdx?_cons]
    have htne : t ≠ [] := by
      rw [hrest]; simp [OSC633_START]
    show parseChunksG Entry.output parseSequence [t] [] [] = [Entry.output t]
    simp only [parseChunksG, List.nil_append]
    rw [show processBufferG Entry.output parseSequence [] t = ([], [], t) from ?_]
    · simp only [List.nil_append, parseChunksG, List.length_nil]
      rw [if_pos (Or.inr (List.length_pos.mpr htne))]
    · have := pbG_noST Entry.output parseSequence [] t hesc
        (by simpa using hp) (not_eq_mem_beq_none hst)
      simpa using this

/-- C6 witness: the hypothesised cases at concrete inputs. -/
theorem completion_spec_witness :
    parseChunksG Entry.output parseSequence [] ['a'] [] = [Entry.output ['a']] ∧
    parse [OSC633_START ++ ['E']] = [Entry.output (OSC633_START ++ ['E'])] := by
  constructor
  · exact completion_spec.1 ['a'] [] (by simp)
  · exact completion_spec.2.2 (OSC633_START ++ ['E']) (by decide) (by decide)

/-! ### `findIdx?` and prefix toolkit -/

theorem fi_lt_length {p : Char → Bool} {l : Str} {i : Nat} (h : l.findIdx? p = some i) :
    i < l.length := by
  obtain ⟨hlt, -⟩ := List.findIdx?_eq_some_iff_getElem.mp h
  exact hlt

theorem fi_append_some {p : Char → Bool} {l : Str} {i : Nat} (m : Str)
    (h : l.findIdx? p = some i) : (l ++ m).findIdx? p = some i := by
  rw [List.findIdx?_append, h]
  rfl

theorem fi_append_none {p : Char → Bool} {l : Str} (m : Str)
    (h : l.findIdx? p = none) :
    (l ++ m).findIdx? p = (m.findIdx? p).map fun i => i + l.length := by
  rw [List.findIdx?_append, h, Option.none_or]

theorem fi_drop_zero {p : Char → Bool} {l : Str} {i : Nat} (h : l.findIdx? p = some i) :
    (l.drop i).findIdx? p = some 0 := by
  obtain ⟨hlt, hp, -⟩ := List.findIdx?_eq_some_iff_getElem.mp h
  rw [List.drop_eq_getElem_cons hlt, List.findIdx?_cons, if_pos hp]

theorem isPartial_iff (s : Str) : isPartialOSC633Start s = true ↔ s <+: OSC633_START := by
  rw [isPartialOSC633Start, beq_iff_eq]
  exact List.prefix_iff_eq_take.symm

theorem not_prefix_not_partial_append {u v : Str}
    (hp : ¬ OSC633_START <+: u) (hpart : ¬ u <+: OSC633_START) :
    ¬ OSC633_START <+: (u ++ v) ∧ ¬ (u ++ v) <+: OSC633_START := by
  constructor
  · intro h
    rcases List.prefix_or_prefix_of_prefix h (List.prefix_append u v) with h1 | h1
    · exact hp h1
    · exact hpart h1
  · intro h
    exact hpart ((List.prefix_append u v).trans h)

theorem drop_take_slice (buf : Str) (e r : Nat) :
    ((buf.drop e).take r).drop 6 = (buf.take (e + r)).drop (e + 6) := by
  rw [List.take_drop, List.drop_drop]

/-- Scanning a buffer whose first escape byte sits at index `e` is the same as
first moving the text before it into the accumulator. -/
theorem step_shift {X : Type} (eo es : Str → X) (ob buf : Str) (e : Nat)
    (he : buf.findIdx? (· == ESC) = some e) :
    processBufferG eo es ob buf = processBufferG eo es (ob ++ buf.take e) (buf.drop e) := by
  have he_lt : e < buf.length := fi_lt_length he
  have hdrop0 : (buf.drop e).findIdx? (· == ESC) = some 0 := fi_drop_zero he
  by_cases hp : OSC633_START.isPrefixOf (buf.drop e) = true
  · cases hst : (buf.drop e).findIdx? (· == ST) with
    | none =>
      rw [pbG_noST eo es ob buf he hp hst,
        pbG_noST eo es (ob ++ buf.take e) (buf.drop e) hdrop0 (by simpa using hp)
          (by simpa using hst)]
      simp
    | some r =>
      rw [pbG_seq eo es ob buf he hp hst,
        pbG_seq eo es (ob ++ buf.take e) (buf.drop e) hdrop0 (by simpa using hp)
          (by simpa using hst)]
      have hseq : ((buf.drop e).take (0 + r)).drop (0 + 6) = (buf.take (e + r)).drop (e + 6) := by
        rw [Nat.zero_add, Nat.zero_add, drop_take_slice]
      have hrec : (buf.drop e).drop (0 + r + 1) = buf.drop (e + r + 1) := by
        rw [List.drop_drop]
        congr 1
        omega
      rw [hseq, hrec]
      simp
  · by_cases hpart : isPartialOSC633Start (buf.drop e) = true
    · rw [pbG_stall eo es ob buf he hp hpart,
        pbG_stall eo es (ob ++ buf.take e) (buf.drop e) hdrop0 (by simpa using hp)
          (by simpa using hpart)]
      simp
    · rw [pbG_skip eo es ob buf he hp hpart,
        pbG_skip eo es (ob ++ buf.take e) (buf.drop e) hdrop0 (by simpa using hp)
          (by simpa using hpart)]
      have htk : (ob ++ buf.take e) ++ (buf.drop e).take (0 + 1) = ob ++ buf.take (e + 1) := by
        rw [List.append_assoc, ← List.take_add]
      have hdr : (buf.drop e).drop (0 + 1) = buf.drop (e + 1) := by
        rw [List.drop_drop]
      rw [htk, hdr]

theorem processBufferG_append_bounded {X : Type} (eo es : Str → X) :
    ∀ n buf ob extra, buf.length ≤ n →
      processBufferG eo es ob (buf ++ extra) =
        contG eo es (processBufferG eo es ob buf) extra := by
  intro n
  induction n with
  | zero =>
    intro buf ob extra h
    have hb : buf = [] := List.eq_nil_of_length_eq_zero (Nat.le_zero.mp h)
    subst hb
    simp [contG, pbG_nil]
  | succ n ih =>
    intro buf ob extra h
    by_cases hb : buf = []
    · subst hb
      simp [contG, pbG_nil]
    · cases he : buf.findIdx? (· == ESC) with
      | none =>
        rw [pbG_noesc eo es ob buf hb he]
        simp only [contG, List.nil_append]
        cases hex : extra.findIdx? (· == ESC) with
        | none =>
          by_cases hee : extra = []
          · subst hee
            rw [List.append_nil, pbG_noesc eo es ob buf hb he, pbG_nil]
          · have h1 : (buf ++ extra).findIdx? (· == ESC) = none := by
              rw [fi_append_none extra he, hex]
              rfl
            rw [pbG_noesc eo es ob (buf ++ extra) (by simp [hb]) h1,
              pbG_noesc eo es (ob ++ buf) extra hee hex]
            simp [List.append_assoc]
        | some j =>
          have h1 : (buf ++ extra).findIdx? (· == ESC) = some (j + buf.length) := by
            rw [fi_append_none extra he, hex]
            rfl
          rw [step_shift eo es ob (buf ++ extra) _ h1,
            step_shift eo es (ob ++ buf) extra j hex]
          have htk : (buf ++ extra).take (j + buf.length) = buf ++ extra.take j := by
            rw [Nat.add_comm, List.take_append]
          have hdr : (buf ++ extra).drop (j + buf.length) = extra.drop j := by
            rw [Nat.add_comm, List.drop_append]
          rw [htk, hdr, ← List.append_assoc]
      | some e =>
        have he_lt : e < buf.length := fi_lt_length he
        have hu_pos : 0 < (buf.drop e).length := by
          simp only [List.length_drop]
          omega
        have hbe : (buf ++ extra).findIdx? (· == ESC) = some e := fi_append_some extra he
        have hTake : (buf ++ extra).take e = buf.take e :=
          List.take_append_of_le_length (Nat.le_of_lt he_lt)
        have hDrop : (buf ++ extra).drop e = buf.drop e ++ extra :=
          List.drop_append_of_le_length (Nat.le_of_lt he_lt)
        rw [step_shift eo es ob (buf ++ extra) e hbe, hTake, hDrop]
        by_cases hp : OSC633_START.isPrefixOf (buf.drop e) = true
        · cases hst : (buf.drop e).findIdx? (· == ST) with
          | none =>
            rw [pbG_noST eo es ob buf he hp hst]
            simp [contG]
          | some r =>
            have hr_lt : r < (buf.drop e).length := fi_lt_length hst
            have h0esc : ((buf.drop e) ++ extra).findIdx? (· == ESC) = some 0 :=
              fi_append_some extra (fi_drop_zero he)
            have h0p : OSC633_START.isPrefixOf (((buf.drop e) ++ extra).drop 0) = true := by
              rw [List.drop_zero, List.isPrefixOf_iff_prefix]
              exact (List.isPrefixOf_iff_prefix.mp hp).trans (List.prefix_append _ _)
            have h0st : (((buf.drop e) ++ extra).drop 0).findIdx? (· == ST) = some r := by
              rw [List.drop_zero]
              exact fi_append_some extra hst
            rw [pbG_seq eo es (ob ++ buf.take e) ((buf.drop e) ++ extra) h0esc h0p h0st,
              pbG_seq eo es ob buf he hp hst]
            have hseq : ((((buf.drop e) ++ extra).take (0 + r)).drop (0 + 6)) =
                (buf.take (e + r)).drop (e + 6) := by
              rw [Nat.zero_add, Nat.zero_add,
                List.take_append_of_le_length (Nat.le_of_lt hr_lt), drop_take_slice]
            have hrec : ((buf.drop e) ++ extra).drop (0 + r + 1) =
                buf.drop (e + r + 1) ++ extra := by
              rw [Nat.zero_add, List.drop_append_of_le_length hr_lt, List.drop_drop]
              have hsucc : e + r.succ = e + r + 1 := rfl
              rw [hsucc]
            rw [hseq, hrec]
            have hih := ih (buf.drop (e + r + 1)) [] extra
              (by simp only [List.length_drop]; omega)
            rw [hih]
            simp [contG, List.append_assoc]
        · by_cases hpart : isPartialOSC633Start (buf.drop e) = true
          · rw [pbG_stall eo es ob buf he hp hpart]
            simp [contG]
          · have hp2 : ¬ OSC633_START <+: (buf.drop e) :=
              fun hh => hp (List.isPrefixOf_iff_prefix.mpr hh)
            have hpart2 : ¬ (buf.drop e) <+: OSC633_START :=
              fun hh => hpart ((isPartial_iff _).mpr hh)
            obtain ⟨hp3, hpart3⟩ := not_prefix_not_partial_append (v := extra) hp2 hpart2
            have h0esc : ((buf.drop e) ++ extra).findIdx? (· == ESC) = some 0 :=
              fi_append_some extra (fi_drop_zero he)
            rw [pbG_skip eo es (ob ++ buf.take e) ((buf.drop e) ++ extra) h0esc
              (by rw [List.drop_zero]
                  exact fun hh => hp3 (List.isPrefixOf_iff_prefix.mp hh))
              (by rw [List.drop_zero]
                  exact fun hh => hpart3 ((isPartial_iff _).mp hh))]
            have htk : (ob ++ buf.take e) ++ ((buf.drop e) ++ extra).take (0 + 1) =
                ob ++ buf.take (e + 1) := by
              rw [Nat.zero_add, List.take_append_of_le_length hu_pos,
                List.append_assoc, ← List.take_add]
            have hdr : ((buf.drop e) ++ extra).drop (0 + 1) = buf.drop (e + 1) ++ extra := by
              rw [Nat.zero_add, List.drop_append_of_le_length hu_pos, List.drop_drop]
            rw [htk, hdr, pbG_skip eo es ob buf he hp hpart]
            exact ih (buf.drop (e + 1)) (ob ++ buf.take (e + 1)) extra
              (by simp only [List.length_drop]; omega)

/-- The append law: scanning `buf ++ extra` is scanning `buf` and then resuming
the stalled state with `extra` appended. -/
theorem processBufferG_append {X : Type} (eo es : Str → X) (ob buf extra : Str) :
    processBufferG eo es ob (buf ++ extra) =
      contG eo es (processBufferG eo es ob buf) extra :=
  processBufferG_append_bounded eo es buf.length buf ob extra (Nat.le_refl _)

/-- A finished scan is stalled: running it again consumes nothing. -/
theorem processBufferG_idem {X : Type} (eo es : Str → X) (ob buf : Str) :
    processBufferG eo es (processBufferG eo es ob buf).2.1
        (processBufferG eo es ob buf).2.2 =
      ([], (processBufferG eo es ob buf).2.1, (processBufferG eo es ob buf).2.2) := by
  have h := processBufferG_append eo es ob buf []
  rw [List.append_nil] at h
  simp only [contG, List.append_nil] at h
  rw [Prod.ext_iff] at h
  obtain ⟨h1, h2⟩ := h
  dsimp only at h1 h2
  have hq1 : (processBufferG eo es (processBufferG eo es ob buf).2.1
      (processBufferG eo es ob buf).2.2).1 = [] := List.self_eq_append_right.mp h1
  exact Prod.ext hq1 h2.symm

/-- Feeding the chunks one at a time equals one scan of their concatenation
followed by the final flush, provided the starting state is stalled. -/
theorem parseChunksG_flatten {X : Type} (eo es : Str → X) :
    ∀ (chunks : List Str) (ob buf : Str),
      processBufferG eo es ob buf = ([], ob, buf) →
      parseChunksG eo es chunks ob buf =
        (processBufferG eo es ob (buf ++ chunks.flatten)).1 ++
          parseChunksG eo es [] (processBufferG eo es ob (buf ++ chunks.flatten)).2.1
            (processBufferG eo es ob (buf ++ chunks.flatten)).2.2 := by
  intro chunks
  induction chunks with
  | nil =>
    intro ob buf hstall
    simp only [List.flatten_nil, List.append_nil, hstall, List.nil_append]
  | cons c cs ih =>
    intro ob buf hstall
    have hflat : (c :: cs).flatten = c ++ cs.flatten := List.flatten_cons
    have happ : buf ++ (c :: cs).flatten = (buf ++ c) ++ cs.flatten := by
      rw [hflat, List.append_assoc]
    rw [happ]
    rw [processBufferG_append eo es ob (buf ++ c) cs.flatten]
    simp only [contG]
    show (processBufferG eo es ob (buf ++ c)).1 ++
        parseChunksG eo es cs (processBufferG eo es ob (buf ++ c)).2.1
          (processBufferG eo es ob (buf ++ c)).2.2 = _
    rw [ih (processBufferG eo es ob (buf ++ c)).2.1 (processBufferG eo es ob (buf ++ c)).2.2
      (processBufferG_idem eo es ob (buf ++ c))]
    simp [List.append_assoc]

/-- C2: chunk invariance — `parse` depends only on the concatenation of the
input fragments: any splitting of the same total text yields the same events. -/
theorem chunk_invariance (chunks : List Str) : parse chunks = parse [chunks.flatten] := by
  show parseChunksG Entry.output parseSequence chunks [] [] = _
  rw [parseChunksG_flatten Entry.output parseSequence chunks [] []
    (pbG_nil Entry.output parseSequence [])]
  rfl

/-! ### Input accounting (round-trip) -/

theorem parseSequence_not_output (s : Str) : isOutput (parseSequence s) = false := by
  simp only [parseSequence]
  split
  · rfl
  split
  · rfl
  split
  · rfl
  split
  · simp only [parseCommandEnd]
    rfl
  split
  · simp only [parseCommandLine]
    split
    · rfl
    · rfl
  split
  · simp only [parsePropertyUpdate]
    split
    · rfl
    · split
      · rfl
      · split
        · rfl
        · rfl
  · rfl

theorem parseSequence_invalid_sequence (s sq ty : Str) (ps : List Str) (msg : String)
    (h : parseSequence s = Entry.invalid sq ty ps msg) :
    sq = OSC633_START ++ s ++ [ST] := by
  have hmk : ∀ m : String, mkInvalid (splitOn ';' s) m = Entry.invalid sq ty ps msg →
      sq = OSC633_START ++ s ++ [ST] := by
    intro m hm
    simp only [mkInvalid, Entry.invalid.injEq] at hm
    rw [← hm.1, joinSep_splitOn]
  simp only [parseSequence] at h
  split at h
  · exact Entry.noConfusion h
  split at h
  · exact Entry.noConfusion h
  split at h
  · exact Entry.noConfusion h
  split at h
  · simp only [parseCommandEnd] at h
    exact Entry.noConfusion h
  split at h
  · simp only [parseCommandLine] at h
    split at h
    · exact hmk _ h
    · exact Entry.noConfusion h
  split at h
  · simp only [parsePropertyUpdate] at h
    split at h
    · exact hmk _ h
    · split at h
      · exact hmk _ h
      · split at h
        · exact hmk _ h
        · exact Entry.noConfusion h
  · exact hmk _ h

theorem pb_map {X Y : Type} (f : X → Y) (eo es : Str → X) (eo' es' : Str → Y)
    (ho : ∀ s, f (eo s) = eo' s) (hs : ∀ s, f (es s) = es' s) :
    ∀ n buf ob, buf.length ≤ n →
      (processBufferG eo es ob buf).1.map f = (processBufferG eo' es' ob buf).1 ∧
      (processBufferG eo es ob buf).2 = (processBufferG eo' es' ob buf).2 := by
  intro n
  induction n with
  | zero =>
    intro buf ob h
    have hb : buf = [] := List.eq_nil_of_length_eq_zero (Nat.le_zero.mp h)
    subst hb
    simp [pbG_nil]
  | succ n ih =>
    intro buf ob h
    by_cases hb : buf = []
    · subst hb
      simp [pbG_nil]
    · cases he : buf.findIdx? (· == ESC) with
      | none =>
        rw [pbG_noesc eo es ob buf hb he, pbG_noesc eo' es' ob buf hb he]
        simp
      | some e =>
        by_cases hp : OSC633_START.isPrefixOf (buf.drop e) = true
        · cases hst : (buf.drop e).findIdx? (· == ST) with
          | none =>
            rw [pbG_noST eo es ob buf he hp hst, pbG_noST eo' es' ob buf he hp hst]
            simp
          | some r =>
            rw [pbG_seq eo es ob buf he hp hst, pbG_seq eo' es' ob buf he hp hst]
            obtain ⟨ih1, ih2⟩ := ih (buf.drop (e + r + 1)) []
              (by simp only [List.length_drop]
                  have := List.length_pos.mpr hb
                  omega)
            refine ⟨?_, ih2⟩
            simp only [List.map_append, List.map_cons, ih1, hs]
            congr 1
            by_cases hob : ob ++ buf.take e = []
            · simp [hob]
            · simp [hob, ho]
        · by_cases hpart : isPartialOSC633Start (buf.drop e) = true
          · rw [pbG_stall eo es ob buf he hp hpart, pbG_stall eo' es' ob buf he hp hpart]
            simp
          · rw [pbG_skip eo es ob buf he hp hpart, pbG_skip eo' es' ob buf he hp hpart]
            exact ih (buf.drop (e + 1)) (ob ++ buf.take (e + 1))
              (by simp only [List.length_drop]
                  have := List.length_pos.mpr hb
                  omega)

theorem parseChunksG_map {X Y : Type} (f : X → Y) (eo es : Str → X) (eo' es' : Str → Y)
    (ho : ∀ s, f (eo s) = eo' s) (hs : ∀ s, f (es s) = es' s) :
    ∀ (chunks : List Str) (ob buf : Str),
      (parseChunksG eo es chunks ob buf).map f = parseChunksG eo' es' chunks ob buf := by
  intro chunks
  induction chunks with
  | nil =>
    intro ob buf
    simp only [parseChunksG]
    by_cases hc : 0 < ob.length ∨ 0 < buf.length
    · rw [if_pos hc, if_pos hc]
      simp [ho]
    · rw [if_neg hc, if_neg hc]
      rfl
  | cons c cs ih =>
    intro ob buf
    simp only [parseChunksG, List.map_append]
    obtain ⟨h1, h2⟩ := pb_map f eo es eo' es' ho hs (buf ++ c).length (buf ++ c) ob
      (Nat.le_refl _)
    rw [h1, ih, h2]

theorem pb_mem {X : Type} (eo es : Str → X) :
    ∀ n buf ob x, buf.length ≤ n → x ∈ (processBufferG eo es ob buf).1 →
      (∃ s, x = eo s) ∨ (∃ s, x = es s) := by
  intro n
  induction n with
  | zero =>
    intro buf ob x h hx
    have hb : buf = [] := List.eq_nil_of_length_eq_zero (Nat.le_zero.mp h)
    subst hb
    simp [pbG_nil] at hx
  | succ n ih =>
    intro buf ob x h hx
    by_cases hb : buf = []
    · subst hb
      simp [pbG_nil] at hx
    · cases he : buf.findIdx? (· == ESC) with
      | none =>
        rw [pbG_noesc eo es ob buf hb he] at hx
        simp at hx
      | some e =>
        by_cases hp : OSC633_START.isPrefixOf (buf.drop e) = true
        · cases hst : (buf.drop e).findIdx? (· == ST) with
          | none =>
            rw [pbG_noST eo es ob buf he hp hst] at hx
            simp at hx
          | some r =>
            rw [pbG_seq eo es ob buf he hp hst] at hx
            simp only [List.mem_append, List.mem_cons] at hx
            rcases hx with hx | hx | hx
            · by_cases hob : ob ++ buf.take e = []
              · rw [if_pos hob] at hx
                simp at hx
              · rw [if_neg hob] at hx
                simp only [List.mem_singleton] at hx
                exact Or.inl ⟨_, hx⟩
            · exact Or.inr ⟨_, hx⟩
            · exact ih (buf.drop (e + r + 1)) [] x
                (by simp only [List.length_drop]
                    have := List.length_pos.mpr hb
                    omega) hx
        · by_cases hpart : isPartialOSC633Start (buf.drop e) = true
          · rw [pbG_stall eo es ob buf he hp hpart] at hx
            simp at hx
          · rw [pbG_skip eo es ob buf he hp hpart] at hx
            exact ih (buf.drop (e + 1)) (ob ++ buf.take (e + 1)) x
              (by simp only [List.length_drop]
                  have := List.length_pos.mpr hb
                  omega) hx

theorem parseChunksG_mem {X : Type} (eo es : Str → X) :
    ∀ (chunks : List Str) (ob buf : Str) (x : X),
      x ∈ parseChunksG eo es chunks ob buf → (∃ s, x = eo s) ∨ (∃ s, x = es s) := by
  intro chunks
  induction chunks with
  | nil =>
    intro ob buf x hx
    simp only [parseChunksG] at hx
    by_cases hc : 0 < ob.length ∨ 0 < buf.length
    · rw [if_pos hc] at hx
      simp only [List.mem_singleton] at hx
      exact Or.inl ⟨_, hx⟩
    · rw [if_neg hc] at hx
      simp at hx
  | cons c cs ih =>
    intro ob buf x hx
    simp only [parseChunksG, List.mem_append] at hx
    rcases hx with hx | hx
    · exact pb_mem eo es (buf ++ c).length (buf ++ c) ob x (Nat.le_refl _) hx
    · exact ih _ _ x hx

/-- Inside a buffer whose escape introducer sits at `e`, whose remainder
carries the full family prefix, and whose first terminator past `e` sits at
relative index `r`, the scanned region is literally prefix + body + terminator. -/
theorem buf_decomposition (buf : Str) (e r : Nat)
    (hp : OSC633_START <+: buf.drop e)
    (hst : (buf.drop e).findIdx? (· == ST) = some r) :
    6 ≤ r ∧
    buf = buf.take e ++ (OSC633_START ++ (buf.take (e + r)).drop (e + 6) ++ [ST]) ++
      buf.drop (e + r + 1) := by
  obtain ⟨hr_lt, hSTr, hmin⟩ := List.findIdx?_eq_some_iff_getElem.mp hst
  have hSTr' : (buf.drop e)[r] = ST := by simpa using hSTr
  have h6 : 6 ≤ r := by
    by_contra hlt
    push_neg at hlt
    have h61 : r < OSC633_START.length := by rw [OSC633_START_length]; omega
    have hpe := List.IsPrefix.getElem hp h61
    have hmem : OSC633_START[r] ∈ OSC633_START := List.getElem_mem h61
    rw [hpe, hSTr'] at hmem
    exact absurd hmem (by decide)
  refine ⟨h6, ?_⟩
  have hprefd : 6 ≤ (buf.drop e).length := by
    have := hp.length_le
    rw [OSC633_START_length] at this
    exact this
  have hu : buf.drop e = (buf.drop e).take r ++ ST :: buf.drop (e + r + 1) := by
    conv_lhs => rw [← List.take_append_drop r (buf.drop e)]
    congr 1
    rw [List.drop_eq_getElem_cons hr_lt, hSTr', List.drop_drop]
    rfl
  have htk : (buf.drop e).take r = OSC633_START ++ (buf.take (e + r)).drop (e + 6) := by
    have hpr : OSC633_START <+: (buf.drop e).take r := by
      rw [List.prefix_take_iff]
      exact ⟨hp, by rw [OSC633_START_length]; exact h6⟩
    obtain ⟨w, hw⟩ := hpr
    have hww : w = ((buf.drop e).take r).drop 6 := by
      rw [← hw]
      simp [OSC633_START_length]
    rw [← hw, hww, drop_take_slice]
  calc buf = buf.take e ++ buf.drop e := (List.take_append_drop e buf).symm
    _ = buf.take e ++ ((buf.drop e).take r ++ ST :: buf.drop (e + r + 1)) := by rw [← hu]
    _ = buf.take e ++ (OSC633_START ++ (buf.take (e + r)).drop (e + 6) ++ [ST]) ++
        buf.drop (e + r + 1) := by
      rw [htk]
      simp [List.append_assoc]

theorem processBufferR_text :
    ∀ n buf ob, buf.length ≤ n →
      ((processBufferG emitOutR emitSeqR ob buf).1.map Prod.snd).flatten ++
        (processBufferG emitOutR emitSeqR ob buf).2.1 ++
        (processBufferG emitOutR emitSeqR ob buf).2.2 = ob ++ buf := by
  intro n
  induction n with
  | zero =>
    intro buf ob h
    have hb : buf = [] := List.eq_nil_of_length_eq_zero (Nat.le_zero.mp h)
    subst hb
    simp [pbG_nil]
  | succ n ih =>
    intro buf ob h
    by_cases hb : buf = []
    · subst hb
      simp [pbG_nil]
    · cases he : buf.findIdx? (· == ESC) with
      | none =>
        rw [pbG_noesc emitOutR emitSeqR ob buf hb he]
        simp
      | some e =>
        by_cases hp : OSC633_START.isPrefixOf (buf.drop e) = true
        · cases hst : (buf.drop e).findIdx? (· == ST) with
          | none =>
            rw [pbG_noST emitOutR emitSeqR ob buf he hp hst]
            simp [List.append_assoc, List.take_append_drop]
          | some r =>
            obtain ⟨h6, hdec⟩ := buf_decomposition buf e r (List.isPrefixOf_iff_prefix.mp hp) hst
            have hih := ih (buf.drop (e + r + 1)) []
              (by simp only [List.length_drop]
                  have := List.length_pos.mpr hb
                  omega)
            rw [List.nil_append] at hih
            rw [pbG_seq emitOutR emitSeqR ob buf he hp hst]
            have hflush : (((if ob ++ buf.take e = [] then ([] : List (Entry × Str))
        else [emitOutR (ob ++ buf.take e)]).map Prod.snd).flatten) = ob ++ buf.take e := by
              by_cases hob : ob ++ buf.take e = []
              · rw [if_pos hob, hob]
                rfl
              · rw [if_neg hob]
                simp [emitOutR]
            generalize hPP : processBufferG emitOutR emitSeqR [] (buf.drop (e + r + 1)) = P
              at hih ⊢
            simp only [List.map_append, List.map_cons, List.flatten_append, List.flatten_cons,
              emitSeqR, hflush]
            conv_rhs => rw [hdec]
            rw [← hih]
            simp [List.append_assoc]
        · by_cases hpart : isPartialOSC633Start (buf.drop e) = true
          · rw [pbG_stall emitOutR emitSeqR ob buf he hp hpart]
            simp [List.append_assoc, List.take_append_drop]
          · rw [pbG_skip emitOutR emitSeqR ob buf he hp hpart]
            rw [ih (buf.drop (e + 1)) (ob ++ buf.take (e + 1))
              (by simp only [List.length_drop]
                  have := List.length_pos.mpr hb
                  omega)]
            simp [List.append_assoc, List.take_append_drop]

theorem parseChunksR_text :
    ∀ (chunks : List Str) (ob buf : Str),
      ((parseChunksG emitOutR emitSeqR chunks ob buf).map Prod.snd).flatten =
        ob ++ buf ++ chunks.flatten := by
  intro chunks
  induction chunks with
  | nil =>
    intro ob buf
    simp only [parseChunksG, List.flatten_nil, List.append_nil]
    by_cases hc : 0 < ob.length ∨ 0 < buf.length
    · rw [if_pos hc]
      simp [emitOutR]
    · rw [if_neg hc]
      push_neg at hc
      obtain ⟨h1, h2⟩ := hc
      have hob : ob = [] := by
        cases ob with
        | nil => rfl
        | cons a b => simp at h1
      have hbuf : buf = [] := by
        cases buf with
        | nil => rfl
        | cons a b => simp at h2
      subst hob
      subst hbuf
      rfl
  | cons c cs ih =>
    intro ob buf
    simp only [parseChunksG, List.map_append, List.flatten_append, List.flatten_cons]
    rw [ih]
    have hpb := processBufferR_text (buf ++ c).length (buf ++ c) ob (Nat.le_refl _)
    have h3 := congrArg (fun l => l ++ cs.flatten) hpb
    simp only [List.append_assoc] at h3
    simpa [List.append_assoc] using h3

theorem entryTextR_emitSeq (s : Str) : entryTextR (emitSeqR s) = OSC633_START ++ s ++ [ST] := by
  simp only [emitSeqR]
  cases hps : parseSequence s with
  | promptStart => rfl
  | promptEnd => rfl
  | commandStart => rfl
  | commandEnd ec => rfl
  | commandLine c nn => rfl
  | propertyUpdate a b => rfl
  | output v =>
    have hno := parseSequence_not_output s
    rw [hps] at hno
    simp [isOutput] at hno
  | invalid sq ty ps msg =>
    simp only [entryTextR]
    exact parseSequence_invalid_sequence s sq ty ps msg hps

/-- C1 counterexample: reconstructing the wire text of a well-formed event
from its decoded fields does not reproduce the input — `"\x1b]633;A;x\x07"`
decodes to a bare `PromptStart`, and the field-based reconstruction drops the
ignored `";x"`. -/
theorem roundtrip_reconstruction_counterexample :
    parse [OSC633_START ++ ['A', ';', 'x'] ++ [ST]] = [Entry.promptStart] ∧
    ((parse [OSC633_START ++ ['A', ';', 'x'] ++ [ST]]).map reconstructEntry).flatten ≠
      ([OSC633_START ++ ['A', ';', 'x'] ++ [ST]] : List Str).flatten := by
  decide

/-- C1 (amended): every byte of input is accounted for — concatenating, in
emission order, each `Output`'s value, each `Invalid`'s `sequence` field, and
the original wire text of each well-formed sequence as scanned (carried
alongside the events by the instrumented scanner `parseR`, whose events agree
with `parse`) yields exactly the concatenation of the input fragments.
Reconstruction from the decoded fields alone can differ (see the
counterexample), since extra parts of `A`/`B`/`C` are dropped and `E`/`P`
fields are unescaped. -/
theorem roundtrip_accounting (chunks : List Str) :
    ((parseR chunks).map entryTextR).flatten = chunks.flatten ∧
    (parseR chunks).map Prod.fst = parse chunks := by
  constructor
  · have hmap : (parseR chunks).map entryTextR = (parseR chunks).map Prod.snd := by
      apply List.map_congr_left
      intro x hx
      rcases parseChunksG_mem emitOutR emitSeqR chunks [] [] x hx with ⟨s, rfl⟩ | ⟨s, rfl⟩
      · rfl
      · exact entryTextR_emitSeq s
    rw [hmap]
    have := parseChunksR_text chunks [] []
    simpa using this
  · exact parseChunksG_map Prod.fst emitOutR emitSeqR Entry.output parseSequence
      (fun s => rfl) (fun s => rfl) chunks [] []

/-! ### Output coalescing -/

theorem Blocks_append {l₁ l₂ : List Entry} (h₁ : Blocks l₁) (h₂ : Blocks l₂) :
    Blocks (l₁ ++ l₂) := by
  induction h₁ with
  | nil => exact h₂
  | seq e he hr ih => exact Blocks.seq e he ih
  | outseq v hv e he hr ih => exact Blocks.outseq v hv e he ih

theorem Blocks_output_ne_nil {l : List Entry} (h : Blocks l) :
    ∀ v, Entry.output v ∈ l → v ≠ [] := by
  induction h with
  | nil => intro v hv; simp at hv
  | seq e he hr ih =>
    intro v hv
    rcases List.mem_cons.mp hv with hv | hv
    · rw [← hv] at he
      simp [isOutput] at he
    · exact ih v hv
  | outseq w hw e he hr ih =>
    intro v hv
    rcases List.mem_cons.mp hv with hv | hv
    · injection hv with hv
      rw [hv]
      exact hw
    · rcases List.mem_cons.mp hv with hv | hv
      · rw [← hv] at he
        simp [isOutput] at he
      · exact ih v hv

theorem Blocks_chain {l : List Entry} (h : Blocks l) :
    l.Chain' (fun a b => ¬(isOutput a = true ∧ isOutput b = true)) ∧
    (∀ x ∈ l.getLast?, isOutput x = false) := by
  induction h with
  | nil => exact ⟨List.chain'_nil, by simp⟩
  | seq e he hr ih =>
    obtain ⟨ihc, ihl⟩ := ih
    constructor
    · rw [List.chain'_cons']
      refine ⟨?_, ihc⟩
      intro y _
      intro hcon
      rw [he] at hcon
      exact Bool.false_ne_true hcon.1
    · intro x hx
      cases hrest : ‹List Entry› with
      | nil =>
        rw [hrest] at hx
        simp only [List.getLast?_singleton, Option.mem_some_iff] at hx
        rw [← hx]
        exact he
      | cons b bs =>
        rw [hrest] at hx ihl
        rw [List.getLast?_cons_cons] at hx
        exact ihl x hx
  | outseq v hv e he hr ih =>
    obtain ⟨ihc, ihl⟩ := ih
    have hchain : (e :: ‹List Entry›).Chain'
        (fun a b => ¬(isOutput a = true ∧ isOutput b = true)) := by
      rw [List.chain'_cons']
      refine ⟨?_, ihc⟩
      intro y _
      intro hcon
      rw [he] at hcon
      exact Bool.false_ne_true hcon.1
    constructor
    · rw [List.chain'_cons']
      refine ⟨?_, hchain⟩
      intro y hy
      intro hcon
      simp only [List.head?_cons, Option.mem_some_iff] at hy
      rw [← hy, he] at hcon
      exact Bool.false_ne_true hcon.2
    · intro x hx
      rw [List.getLast?_cons_cons] at hx
      cases hrest : ‹List Entry› with
      | nil =>
        rw [hrest] at hx
        simp only [List.getLast?_singleton, Option.mem_some_iff] at hx
        rw [← hx]
        exact he
      | cons b bs =>
        rw [hrest] at hx ihl
        rw [List.getLast?_cons_cons] at hx
        exact ihl x hx

theorem pb_blocks :
    ∀ n buf ob, buf.length ≤ n →
      Blocks (processBufferG Entry.output parseSequence ob buf).1 := by
  intro n
  induction n with
  | zero =>
    intro buf ob h
    have hb : buf = [] := List.eq_nil_of_length_eq_zero (Nat.le_zero.mp h)
    subst hb
    rw [pbG_nil]
    exact Blocks.nil
  | succ n ih =>
    intro buf ob h
    by_cases hb : buf = []
    · subst hb
      rw [pbG_nil]
      exact Blocks.nil
    · cases he : buf.findIdx? (· == ESC) with
      | none =>
        rw [pbG_noesc Entry.output parseSequence ob buf hb he]
        exact Blocks.nil
      | some e =>
        by_cases hp : OSC633_START.isPrefixOf (buf.drop e) = true
        · cases hst : (buf.drop e).findIdx? (· == ST) with
          | none =>
            rw [pbG_noST Entry.output parseSequence ob buf he hp hst]
            exact Blocks.nil
          | some r =>
            rw [pbG_seq Entry.output parseSequence ob buf he hp hst]
            have hrec := ih (buf.drop (e + r + 1)) []
              (by simp only [List.length_drop]
                  have := List.length_pos.mpr hb
                  omega)
            by_cases hob : ob ++ buf.take e = []
            · rw [if_pos hob]
              exact Blocks.seq _ (parseSequence_not_output _) hrec
            · rw [if_neg hob]
              exact Blocks.outseq _ hob _ (parseSequence_not_output _) hrec
        · by_cases hpart : isPartialOSC633Start (buf.drop e) = true
          · rw [pbG_stall Entry.output parseSequence ob buf he hp hpart]
            exact Blocks.nil
          · rw [pbG_skip Entry.output parseSequence ob buf he hp hpart]
            exact ih (buf.drop (e + 1)) (ob ++ buf.take (e + 1))
              (by simp only [List.length_drop]
                  have := List.length_pos.mpr hb
                  omega)

theorem parseChunks_shape :
    ∀ (chunks : List Str) (ob buf : Str),
      ∃ pre post, parseChunksG Entry.output parseSequence chunks ob buf = pre ++ post ∧
        Blocks pre ∧ (post = [] ∨ ∃ v, v ≠ [] ∧ post = [Entry.output v]) := by
  intro chunks
  induction chunks with
  | nil =>
    intro ob buf
    simp only [parseChunksG]
    by_cases hc : 0 < ob.length ∨ 0 < buf.length
    · refine ⟨[], [Entry.output (ob ++ buf)], by rw [if_pos hc]; rfl, Blocks.nil,
        Or.inr ⟨ob ++ buf, ?_, rfl⟩⟩
      intro hnil
      have := congrArg List.length hnil
      simp only [List.length_append, List.length_nil] at this
      omega
    · exact ⟨[], [], by rw [if_neg hc]; rfl, Blocks.nil, Or.inl rfl⟩
  | cons c cs ih =>
    intro ob buf
    obtain ⟨pre, post, heq, hpre, hpost⟩ :=
      ih (processBufferG Entry.output parseSequence ob (buf ++ c)).2.1
        (processBufferG Entry.output parseSequence ob (buf ++ c)).2.2
    refine ⟨(processBufferG Entry.output parseSequence ob (buf ++ c)).1 ++ pre, post, ?_, ?_,
      hpost⟩
    · simp only [parseChunksG, heq, List.append_assoc]
    · exact Blocks_append (pb_blocks (buf ++ c).length (buf ++ c) ob (Nat.le_refl _)) hpre

/-- C7: every `Output` event `parse` emits is non-empty, and no two `Output`
events are ever adjacent in the emitted stream — adjacent literal text is
always coalesced into a single `Output`. -/
theorem output_events_spec (chunks : List Str) :
    (∀ v, Entry.output v ∈ parse chunks → v ≠ []) ∧
    (parse chunks).Chain' (fun a b => ¬(isOutput a = true ∧ isOutput b = true)) := by
  obtain ⟨pre, post, heq, hpre, hpost⟩ := parseChunks_shape chunks [] []
  have heq' : parse chunks = pre ++ post := heq
  obtain ⟨hchain, hlast⟩ := Blocks_chain hpre
  constructor
  · intro v hv
    rw [heq'] at hv
    rcases List.mem_append.mp hv with hv | hv
    · exact Blocks_output_ne_nil hpre v hv
    · rcases hpost with rfl | ⟨w, hw, rfl⟩
      · simp at hv
      · simp only [List.mem_singleton, Entry.output.injEq] at hv
        rw [hv]
        exact hw
  · rw [heq']
    have hpostchain : post.Chain' (fun a b => ¬(isOutput a = true ∧ isOutput b = true)) := by
      rcases hpost with rfl | ⟨w, hw, rfl⟩
      · exact List.chain'_nil
      · exact List.chain'_singleton _
    refine List.Chain'.append hchain hpostchain ?_
    intro x hx y _
    intro hcon
    have := hlast x hx
    rw [this] at hcon
    exact Bool.false_ne_true hcon.1

/-- C7 witness: the hypothesised parts at a concrete input. -/
theorem output_events_spec_witness :
    (['a'] : Str) ≠ [] ∧
    (parse [['a'], OSC633_START ++ ['A'] ++ [ST], ['b']]).Chain'
      (fun a b => ¬(isOutput a = true ∧ isOutput b = true)) := by
  constructor
  · exact (output_events_spec [['a'], OSC633_START ++ ['A'] ++ [ST], ['b']]).1 ['a'] (by decide)
  · exact (output_events_spec [['a'], OSC633_START ++ ['A'] ++ [ST], ['b']]).2

/-! ### Error recovery -/

theorem pb_state_shape {X : Type} (eo es : Str → X) :
    ∀ n buf ob, buf.length ≤ n →
      (processBufferG eo es ob buf).2.2 = [] ∨
      OSC633_START.isPrefixOf (processBufferG eo es ob buf).2.2 = true ∨
      (isPartialOSC633Start (processBufferG eo es ob buf).2.2 = true ∧
        ¬ OSC633_START.isPrefixOf (processBufferG eo es ob buf).2.2 = true) := by
  intro n
  induction n with
  | zero =>
    intro buf ob h
    have hb : buf = [] := List.eq_nil_of_length_eq_zero (Nat.le_zero.mp h)
    subst hb
    rw [pbG_nil]
    exact Or.inl rfl
  | succ n ih =>
    intro buf ob h
    by_cases hb : buf = []
    · subst hb
      rw [pbG_nil]
      exact Or.inl rfl
    · cases he : buf.findIdx? (· == ESC) with
      | none =>
        rw [pbG_noesc eo es ob buf hb he]
        exact Or.inl rfl
      | some e =>
        by_cases hp : OSC633_START.isPrefixOf (buf.drop e) = true
        · cases hst : (buf.drop e).findIdx? (· == ST) with
          | none =>
            rw [pbG_noST eo es ob buf he hp hst]
            exact Or.inr (Or.inl hp)
          | some r =>
            rw [pbG_seq eo es ob buf he hp hst]
            exact ih (buf.drop (e + r + 1)) []
              (by simp only [List.length_drop]
                  have := List.length_pos.mpr hb
                  omega)
        · by_cases hpart : isPartialOSC633Start (buf.drop e) = true
          · rw [pbG_stall eo es ob buf he hp hpart]
            exact Or.inr (Or.inr ⟨hpart, hp⟩)
          · rw [pbG_skip eo es ob buf he hp hpart]
            exact ih (buf.drop (e + 1)) (ob ++ buf.take (e + 1))
              (by simp only [List.length_drop]
                  have := List.length_pos.mpr hb
                  omega)

theorem isPartial_false_of_long {s : Str} (h : 6 < s.length) :
    isPartialOSC633Start s = false := by
  rw [isPartialOSC633Start, List.take_of_length_le (by rw [OSC633_START_length]; omega)]
  rw [beq_eq_false_iff_ne]
  intro heq
  rw [heq, OSC633_START_length] at h
  omega

theorem flush_event_eq {X : Type} (eo : Str → X) (ob buf : Str) :
    (if 0 < ob.length ∨ 0 < buf.length then [eo (ob ++ buf)] else []) =
      (if ob ++ buf = [] then [] else [eo (ob ++ buf)]) := by
  by_cases h : ob ++ buf = []
  · obtain ⟨h1, h2⟩ := List.append_eq_nil.mp h
    subst h1
    subst h2
    simp
  · rw [if_neg h, if_pos]
    rcases List.exists_mem_of_ne_nil _ h with ⟨a, -⟩
    by_cases hob : ob = []
    · subst hob
      simp only [List.nil_append] at h
      exact Or.inr (List.length_pos.mpr h)
    · exact Or.inl (List.length_pos.mpr hob)

/-- Scanning a buffer that starts with a complete framed sequence: flush any
pending output, emit the decoded event, and continue on the remainder. -/
theorem scan_wire {X : Type} (eo es : Str → X) (ob body rest : Str) (hbody : ST ∉ body) :
    processBufferG eo es ob (OSC633_START ++ body ++ [ST] ++ rest) =
      ((if ob = [] then [] else [eo ob]) ++
        es body :: (processBufferG eo es [] rest).1,
        (processBufferG eo es [] rest).2) := by
  have hesc : (OSC633_START ++ body ++ [ST] ++ rest).findIdx? (· == ESC) = some 0 := by
    simp [OSC633_START, List.findIdx?_cons]
  have hp : OSC633_START.isPrefixOf ((OSC633_START ++ body ++ [ST] ++ rest).drop 0) = true := by
    rw [List.drop_zero, List.isPrefixOf_iff_prefix]
    exact ((List.prefix_append _ _).trans (List.prefix_append _ _)).trans
      (List.prefix_append _ _)
  have hmem : ST ∉ OSC633_START ++ body := by
    intro hm
    rcases List.mem_append.mp hm with hm | hm
    · exact absurd hm (by decide)
    · exact hbody hm
  have h1 : ((OSC633_START ++ body) ++ [ST]).findIdx? (· == ST) =
      some (OSC633_START ++ body).length := by
    rw [fi_append_none [ST] (not_eq_mem_beq_none hmem)]
    simp
  have hst : ((OSC633_START ++ body ++ [ST] ++ rest).drop 0).findIdx? (· == ST) =
      some (OSC633_START ++ body).length := by
    rw [List.drop_zero]
    exact fi_append_some rest h1
  rw [pbG_seq eo es ob _ hesc hp hst]
  have hflush : ob ++ (OSC633_START ++ body ++ [ST] ++ rest).take 0 = ob := by simp
  have hseq : ((OSC633_START ++ body ++ [ST] ++ rest).take
      (0 + (OSC633_START ++ body).length)).drop (0 + 6) = body := by
    rw [Nat.zero_add, Nat.zero_add]
    rw [List.append_assoc (OSC633_START ++ body) [ST] rest]
    rw [List.take_append_of_le_length (Nat.le_refl _), List.take_length]
    rw [show (6 : Nat) = OSC633_START.length from rfl]
    rw [List.drop_append_of_le_length (Nat.le_refl _), List.drop_length, List.nil_append]
  have hrec : (OSC633_START ++ body ++ [ST] ++ rest).drop
      (0 + (OSC633_START ++ body).length + 1) = rest := by
    rw [Nat.zero_add]
    have hlen : (OSC633_START ++ body).length + 1 =
        ((OSC633_START ++ body) ++ [ST]).length := by
      simp only [List.length_append, List.length_cons, List.length_nil]
    rw [hlen, List.drop_append_of_le_length (Nat.le_refl _), List.drop_length, List.nil_append]
  rw [hflush, hseq, hrec]

/-- Scanning escape-free text followed by a complete framed sequence. -/
theorem scan_mid {X : Type} (eo es : Str → X) (ob mid body rest : Str)
    (hmid : ESC ∉ mid) (hbody : ST ∉ body) :
    processBufferG eo es ob (mid ++ (OSC633_START ++ body ++ [ST] ++ rest)) =
      ((if ob ++ mid = [] then [] else [eo (ob ++ mid)]) ++
        es body :: (processBufferG eo es [] rest).1,
        (processBufferG eo es [] rest).2) := by
  by_cases hm : mid = []
  · subst hm
    rw [List.nil_append, scan_wire eo es ob body rest hbody, List.append_nil]
  · have hesc0 : (OSC633_START ++ body ++ [ST] ++ rest).findIdx? (· == ESC) = some 0 := by
      simp [OSC633_START, List.findIdx?_cons]
    have hesc : (mid ++ (OSC633_START ++ body ++ [ST] ++ rest)).findIdx? (· == ESC) =
        some mid.length := by
      rw [fi_append_none _ (not_eq_mem_beq_none hmid), hesc0]
      simp
    rw [step_shift eo es ob _ mid.length hesc]
    rw [List.take_append_of_le_length (Nat.le_refl _), List.take_length,
      List.drop_append_of_le_length (Nat.le_refl _), List.drop_length, List.nil_append]
    exact scan_wire eo es (ob ++ mid) body rest hbody

theorem rb_ne_esc : ¬ (']' : Char) = ESC := by decide

theorem six_ne_esc : ¬ ('6' : Char) = ESC := by decide

theorem three_ne_esc : ¬ ('3' : Char) = ESC := by decide

theorem semi_ne_esc : ¬ ((';' : Char) = ESC) := by decide

/-- Scanning a stalled strict partial prefix followed by a complete framed
sequence: the partial prefix turns out not to continue into a real sequence
start, is moved to the output side, and the following sequence is decoded. -/
theorem scan_partial_wire {X : Type} (eo es : Str → X) (ob bufp body rest : Str)
    (hpart : isPartialOSC633Start bufp = true)
    (hnp : ¬ OSC633_START.isPrefixOf bufp = true)
    (hbody : ST ∉ body) :
    processBufferG eo es ob (bufp ++ (OSC633_START ++ body ++ [ST] ++ rest)) =
      ((if ob ++ bufp = [] then [] else [eo (ob ++ bufp)]) ++
        es body :: (processBufferG eo es [] rest).1,
        (processBufferG eo es [] rest).2) := by
  have hbp : bufp = OSC633_START.take bufp.length :=
    List.prefix_iff_eq_take.mp ((isPartial_iff bufp).mp hpart)
  have hlt : bufp.length < 6 := by
    by_contra hge
    push_neg at hge
    have hbp2 := hbp
    rw [List.take_of_length_le (by rw [OSC633_START_length]; omega)] at hbp2
    apply hnp
    rw [hbp2, List.isPrefixOf_iff_prefix]
  have hk6 : bufp.length = 0 ∨ bufp.length = 1 ∨ bufp.length = 2 ∨ bufp.length = 3 ∨
      bufp.length = 4 ∨ bufp.length = 5 := by omega
  rcases hk6 with hk | hk | hk | hk | hk | hk
  · have hnil : bufp = [] := List.eq_nil_of_length_eq_zero hk
    subst hnil
    exact scan_mid eo es ob [] body rest (by simp) hbody
  · have hbp3 : OSC633_START.take 1 = [ESC] := rfl
    rw [hk, hbp3] at hbp
    subst hbp
    have hesc : ([ESC] ++ (OSC633_START ++ body ++ [ST] ++ rest)).findIdx? (· == ESC) =
        some 0 := by
      simp [List.findIdx?_cons]
    have hpd : ¬ OSC633_START.isPrefixOf
        (([ESC] ++ (OSC633_START ++ body ++ [ST] ++ rest)).drop 0) = true := by
      simp only [List.drop_zero, List.cons_append, List.nil_append]
      simp [OSC633_START, List.isPrefixOf, rb_ne_esc, six_ne_esc, three_ne_esc, semi_ne_esc]
    have hprt : ¬ isPartialOSC633Start
        (([ESC] ++ (OSC633_START ++ body ++ [ST] ++ rest)).drop 0) = true := by
      simp only [List.drop_zero]
      rw [isPartial_false_of_long (by
        simp only [List.length_append, List.length_cons, List.length_nil, OSC633_START_length]
        omega)]
      simp
    rw [pbG_skip eo es ob _ hesc hpd hprt]
    have htk : ([ESC] ++ (OSC633_START ++ body ++ [ST] ++ rest)).take (0 + 1) = [ESC] := rfl
    have hdr : ([ESC] ++ (OSC633_START ++ body ++ [ST] ++ rest)).drop (0 + 1) =
        ([] : Str) ++ (OSC633_START ++ body ++ [ST] ++ rest) := rfl
    rw [htk, hdr]
    rw [scan_mid eo es (ob ++ [ESC]) ([] : Str) body rest (by decide) hbody]
    have hre : (ob ++ [ESC]) ++ ([] : Str) = ob ++ [ESC] := by simp
    rw [hre]
  · have hbp3 : OSC633_START.take 2 = [ESC, ']'] := rfl
    rw [hk, hbp3] at hbp
    subst hbp
    have hesc : ([ESC, ']'] ++ (OSC633_START ++ body ++ [ST] ++ rest)).findIdx? (· == ESC) =
        some 0 := by
      simp [List.findIdx?_cons]
    have hpd : ¬ OSC633_START.isPrefixOf
        (([ESC, ']'] ++ (OSC633_START ++ body ++ [ST] ++ rest)).drop 0) = true := by
      simp only [List.drop_zero, List.cons_append, List.nil_append]
      simp [OSC633_START, List.isPrefixOf, rb_ne_esc, six_ne_esc, three_ne_esc, semi_ne_esc]
    have hprt : ¬ isPartialOSC633Start
        (([ESC, ']'] ++ (OSC633_START ++ body ++ [ST] ++ rest)).drop 0) = true := by
      simp only [List.drop_zero]
      rw [isPartial_false_of_long (by
        simp only [List.length_append, List.length_cons, List.length_nil, OSC633_START_length]
        omega)]
      simp
    rw [pbG_skip eo es ob _ hesc hpd hprt]
    have htk : ([ESC, ']'] ++ (OSC633_START ++ body ++ [ST] ++ rest)).take (0 + 1) = [ESC] := rfl
    have hdr : ([ESC, ']'] ++ (OSC633_START ++ body ++ [ST] ++ rest)).drop (0 + 1) =
        [']'] ++ (OSC633_START ++ body ++ [ST] ++ rest) := rfl
    rw [htk, hdr]
    rw [scan_mid eo es (ob ++ [ESC]) [']'] body rest (by decide) hbody]
    have hre : (ob ++ [ESC]) ++ [']'] = ob ++ [ESC, ']'] := by simp
    rw [hre]
  · have hbp3 : OSC633_START.take 3 = [ESC, ']', '6'] := rfl
    rw [hk, hbp3] at hbp
    subst hbp
    have hesc : ([ESC, ']', '6'] ++ (OSC633_START ++ body ++ [ST] ++ rest)).findIdx? (· == ESC) =
        some 0 := by
      simp [List.findIdx?_cons]
    have hpd : ¬ OSC633_START.isPrefixOf
        (([ESC, ']', '6'] ++ (OSC633_START ++ body ++ [ST] ++ rest)).drop 0) = true := by
      simp only [List.drop_zero, List.cons_append, List.nil_append]
      simp [OSC633_START, List.isPrefixOf, rb_ne_esc, six_ne_esc, three_ne_esc, semi_ne_esc]
    have hprt : ¬ isPartialOSC633Start
        (([ESC, ']', '6'] ++ (OSC633_START ++ body ++ [ST] ++ rest)).drop 0) = true := by
      simp only [List.drop_zero]
      rw [isPartial_false_of_long (by
        simp only [List.length_append, List.length_cons, List.length_nil, OSC633_START_length]
        omega)]
      simp
    rw [pbG_skip eo es ob _ hesc hpd hprt]
    have htk : ([ESC, ']', '6'] ++ (OSC633_START ++ body ++ [ST] ++ rest)).take (0 + 1) = [ESC] := rfl
    have hdr : ([ESC, ']', '6'] ++ (OSC633_START ++ body ++ [ST] ++ rest)).drop (0 + 1) =
        [']', '6'] ++ (OSC633_START ++ body ++ [ST] ++ rest) := rfl
    rw [htk, hdr]
    rw [scan_mid eo es (ob ++ [ESC]) [']', '6'] body rest (by decide) hbody]
    have hre : (ob ++ [ESC]) ++ [']', '6'] = ob ++ [ESC, ']', '6'] := by simp
    rw [hre]
  · have hbp3 : OSC633_START.take 4 = [ESC, ']', '6', '3'] := rfl
    rw [hk, hbp3] at hbp
    subst hbp
    have hesc : ([ESC, ']', '6', '3'] ++ (OSC633_START ++ body ++ [ST] ++ rest)).findIdx? (· == ESC) =
        some 0 := by
      simp [List.findIdx?_cons]
    have hpd : ¬ OSC633_START.isPrefixOf
        (([ESC, ']', '6', '3'] ++ (OSC633_START ++ body ++ [ST] ++ rest)).drop 0) = true := by
      simp only [List.drop_zero, List.cons_append, List.nil_append]
      simp [OSC633_START, List.isPrefixOf, rb_ne_esc, six_ne_esc, three_ne_esc, semi_ne_esc]
    have hprt : ¬ isPartialOSC633Start
        (([ESC, ']', '6', '3'] ++ (OSC633_START ++ body ++ [ST] ++ rest)).drop 0) = true := by
      simp only [List.drop_zero]
      rw [isPartial_false_of_long (by
        simp only [List.length_append, List.length_cons, List.length_nil, OSC633_START_length]
        omega)]
      simp
    rw [pbG_skip eo es ob _ hesc hpd hprt]
    have htk : ([ESC, ']', '6', '3'] ++ (OSC633_START ++ body ++ [ST] ++ rest)).take (0 + 1) = [ESC] := rfl
    have hdr : ([ESC, ']', '6', '3'] ++ (OSC633_START ++ body ++ [ST] ++ rest)).drop (0 + 1) =
        [']', '6', '3'] ++ (OSC633_START ++ body ++ [ST] ++ rest) := rfl
    rw [htk, hdr]
    rw [scan_mid eo es (ob ++ [ESC]) [']', '6', '3'] body rest (by decide) hbody]
    have hre : (ob ++ [ESC]) ++ [']', '6', '3'] = ob ++ [ESC, ']', '6', '3'] := by simp
    rw [hre]
  · have hbp3 : OSC633_START.take 5 = [ESC, ']', '6', '3', '3'] := rfl
    rw [hk, hbp3] at hbp
    subst hbp
    have hesc : ([ESC, ']', '6', '3', '3'] ++ (OSC633_START ++ body ++ [ST] ++ rest)).findIdx? (· == ESC) =
        some 0 := by
      simp [List.findIdx?_cons]
    have hpd : ¬ OSC633_START.isPrefixOf
        (([ESC, ']', '6', '3', '3'] ++ (OSC633_START ++ body ++ [ST] ++ rest)).drop 0) = true := by
      simp only [List.drop_zero, List.cons_append, List.nil_append]
      simp [OSC633_START, List.isPrefixOf, rb_ne_esc, six_ne_esc, three_ne_esc, semi_ne_esc]
    have hprt : ¬ isPartialOSC633Start
        (([ESC, ']', '6', '3', '3'] ++ (OSC633_START ++ body ++ [ST] ++ rest)).drop 0) = true := by
      simp only [List.drop_zero]
      rw [isPartial_false_of_long (by
        simp only [List.length_append, List.length_cons, List.length_nil, OSC633_START_length]
        omega)]
      simp
    rw [pbG_skip eo es ob _ hesc hpd hprt]
    have htk : ([ESC, ']', '6', '3', '3'] ++ (OSC633_START ++ body ++ [ST] ++ rest)).take (0 + 1) = [ESC] := rfl
    have hdr : ([ESC, ']', '6', '3', '3'] ++ (OSC633_START ++ body ++ [ST] ++ rest)).drop (0 + 1) =
        [']', '6', '3', '3'] ++ (OSC633_START ++ body ++ [ST] ++ rest) := rfl
    rw [htk, hdr]
    rw [scan_mid eo es (ob ++ [ESC]) [']', '6', '3', '3'] body rest (by decide) hbody]
    have hre : (ob ++ [ESC]) ++ [']', '6', '3', '3'] = ob ++ [ESC, ']', '6', '3', '3'] := by simp
    rw [hre]

theorem flush_event_eq2 {X : Type} (eo : Str → X) (ob buf : Str) :
    (if ob = [] ∧ buf = [] then ([] : List X) else [eo (ob ++ buf)]) =
      if 0 < ob.length ∨ 0 < buf.length then [eo (ob ++ buf)] else [] := by
  by_cases h1 : ob = []
  · by_cases h2 : buf = []
    · simp [h1, h2]
    · rw [if_neg (by intro hc; exact h2 hc.2), if_pos (Or.inr (List.length_pos.mpr h2))]
  · rw [if_neg (by intro hc; exact h1 hc.1), if_pos (Or.inl (List.length_pos.mpr h1))]

/-- C8 counterexample: the claim fails as universally stated — when the
prefix text itself ends in an unterminated full `ESC ]633;` start, the
malformed sequence's terminator completes that earlier start instead, and the
events are not "events of the prefix, then the Invalid, then events of the
rest". -/
theorem invalid_recovery_counterexample :
    parse [(OSC633_START ++ ['A']) ++ (OSC633_START ++ ['Q'] ++ [ST]) ++ ([] : Str)] ≠
      parse [OSC633_START ++ ['A']] ++ parseSequence ['Q'] :: parse [([] : Str)] := by
  decide

/-- C8 (amended): malformed sequences are non-fatal and lose no input — for an
input `pre ++ wire ++ rest` whose `wire` is a complete framed sequence with a
failing body, provided scanning `pre` does not stall in an unterminated full
sequence start (it may end in plain text or a strict partial prefix), `parse`
emits the events of `pre` alone, then exactly the one `Invalid` event for the
body, then exactly the events of `rest` alone, resuming right after the
terminator with empty buffers. -/
theorem invalid_recovery_spec (pre body rest : Str)
    (hbody : ST ∉ body)
    (_hfail : isInvalid (parseSequence body) = true)
    (hpre : ¬ OSC633_START.isPrefixOf (processBuffer [] pre).2.2 = true) :
    parse [pre ++ (OSC633_START ++ body ++ [ST]) ++ rest] =
      parse [pre] ++ parseSequence body :: parse [rest] := by
  rw [processBuffer] at hpre
  have hassoc : pre ++ (OSC633_START ++ body ++ [ST]) ++ rest =
      pre ++ ((OSC633_START ++ body ++ [ST]) ++ rest) := List.append_assoc _ _ _
  simp only [parse, parseChunksG, List.nil_append]
  rw [hassoc, processBufferG_append Entry.output parseSequence [] pre _]
  simp only [contG]
  have hscan : processBufferG Entry.output parseSequence
      (processBufferG Entry.output parseSequence [] pre).2.1
      ((processBufferG Entry.output parseSequence [] pre).2.2 ++
        ((OSC633_START ++ body ++ [ST]) ++ rest)) =
      ((if (processBufferG Entry.output parseSequence [] pre).2.1 ++
          (processBufferG Entry.output parseSequence [] pre).2.2 = [] then []
        else [Entry.output ((processBufferG Entry.output parseSequence [] pre).2.1 ++
          (processBufferG Entry.output parseSequence [] pre).2.2)]) ++
        parseSequence body :: (processBufferG Entry.output parseSequence [] rest).1,
        (processBufferG Entry.output parseSequence [] rest).2) := by
    rcases pb_state_shape Entry.output parseSequence pre.length pre [] (Nat.le_refl _) with
      h22 | h22 | ⟨hp1, hp2⟩
    · rw [h22, List.nil_append, List.append_nil]
      exact scan_wire Entry.output parseSequence _ body rest hbody
    · exact absurd h22 hpre
    · exact scan_partial_wire Entry.output parseSequence _ _ body rest hp1 hp2 hbody
  rw [hscan, flush_event_eq]
  simp [List.append_assoc]
  exact flush_event_eq2 Entry.output _ _

/-- C8 witness: the amended statement at a concrete input. -/
theorem invalid_recovery_spec_witness :
    parse [['x'] ++ (OSC633_START ++ ['Q'] ++ [ST]) ++ ['y']] =
      parse [['x']] ++ parseSequence ['Q'] :: parse [['y']] :=
  invalid_recovery_spec ['x'] ['Q'] ['y'] (by decide) (by decide) (by decide)

/-! ### Unescaping: the chained substitutions versus the independent single pass -/

theorem containsSub_tail (p : Str) (c : Char) (rest : Str)
    (h : containsSub p (c :: rest) = false) : containsSub p rest = false := by
  simp only [containsSub, Bool.or_eq_false_iff] at h
  exact h.2

theorem containsSub_head_false (p : Str) (c : Char) (rest : Str)
    (h : containsSub p (c :: rest) = false) : p.isPrefixOf (c :: rest) = false := by
  simp only [containsSub, Bool.or_eq_false_iff] at h
  exact h.1

theorem containsSub_drop (p : Str) : ∀ (k : Nat) (s : Str),
    containsSub p s = false → containsSub p (s.drop k) = false := by
  intro k
  induction k with
  | zero => intro s h; simpa using h
  | succ k ih =>
    intro s h
    cases s with
    | nil => simpa using h
    | cons c rest =>
      rw [List.drop_succ_cons]
      exact ih rest (containsSub_tail p c rest h)

/-- A single-character replacement that differs from every character of `p`
cannot manufacture an occurrence of `p` at the front: if `p` fronts the
replaced string it already fronted the original. -/
theorem through_replaceAll (pat : Str) (r : Char) :
    ∀ (p : Str), (∀ a ∈ p, a ≠ r) →
      ∀ t, p.isPrefixOf (replaceAll pat [r] t) = true → p.isPrefixOf t = true := by
  intro p
  induction p with
  | nil => intro _ t _; exact List.isPrefixOf_nil_left
  | cons a p' ih =>
    intro hp t h
    have ha : a ≠ r := hp a (List.mem_cons_self a p')
    have hp' : ∀ b ∈ p', b ≠ r := fun b hb => hp b (List.mem_cons_of_mem a hb)
    cases t with
    | nil =>
      rw [replaceAll_nil] at h
      simp at h
    | cons c t' =>
      rw [replaceAll_cons] at h
      split at h
      · rw [List.singleton_append, List.isPrefixOf_cons₂, Bool.and_eq_true, beq_iff_eq] at h
        exact absurd h.1 ha
      · rw [List.isPrefixOf_cons₂, Bool.and_eq_true] at h ⊢
        exact ⟨h.1, ih hp' t' h.2⟩

theorem replaceAll_pass (pat repl : Str) (c : Char) (rest : Str)
    (h : pat.isPrefixOf (c :: rest) = false) :
    replaceAll pat repl (c :: rest) = c :: replaceAll pat repl rest := by
  rw [replaceAll_cons, if_neg fun hcon => Bool.false_ne_true (h ▸ hcon.2)]

theorem replaceAll_hit (pat repl : Str) (c : Char) (rest : Str) (hne : pat ≠ [])
    (h : pat.isPrefixOf (c :: rest) = true) :
    replaceAll pat repl (c :: rest) =
      repl ++ replaceAll pat repl ((c :: rest).drop pat.length) := by
  rw [replaceAll_cons, if_pos ⟨hne, h⟩]

theorem isPrefixOf_head_ne {a c : Char} (p t : Str) (h : ¬ a = c) :
    (a :: p).isPrefixOf (c :: t) = false := by
  rw [List.isPrefixOf_cons₂, beq_eq_false_iff_ne.mpr h, Bool.false_and]

/-- Chained unescaping when the escaped-semicolon marker fronts the string. -/
theorem unescapeValue_hit1 (c : Char) (rest : Str)
    (h : (['\\', 'x', '3', 'b'] : Str).isPrefixOf (c :: rest) = true) :
    unescapeValue (c :: rest) = ';' :: unescapeValue ((c :: rest).drop 4) := by
  simp only [unescapeValue]
  rw [replaceAll_hit ['\\', 'x', '3', 'b'] [';'] c rest (by decide) h,
    List.singleton_append,
    replaceAll_pass ['\\', 'x', '0', 'a'] ['\n'] ';' _ (isPrefixOf_head_ne _ _ (by decide)),
    replaceAll_pass ['\\', '\\'] ['\\'] ';' _ (isPrefixOf_head_ne _ _ (by decide))]
  rfl

/-- Chained unescaping when the escaped-newline marker fronts the string. -/
theorem unescapeValue_hit2 (t : Str) :
    unescapeValue ('\\' :: 'x' :: '0' :: 'a' :: t) = '\n' :: unescapeValue t := by
  simp only [unescapeValue]
  rw [replaceAll_pass ['\\', 'x', '3', 'b'] [';'] '\\' _ (by simp [List.isPrefixOf_cons₂]),
    replaceAll_pass ['\\', 'x', '3', 'b'] [';'] 'x' _ (isPrefixOf_head_ne _ _ (by decide)),
    replaceAll_pass ['\\', 'x', '3', 'b'] [';'] '0' _ (isPrefixOf_head_ne _ _ (by decide)),
    replaceAll_pass ['\\', 'x', '3', 'b'] [';'] 'a' _ (isPrefixOf_head_ne _ _ (by decide)),
    replaceAll_hit ['\\', 'x', '0', 'a'] ['\n'] '\\' _ (by decide) (by simp [List.isPrefixOf_cons₂]),
    List.singleton_append,
    replaceAll_pass ['\\', '\\'] ['\\'] '\n' _ (isPrefixOf_head_ne _ _ (by decide))]
  rfl

/-- Chained unescaping when a doubled backslash fronts the string and neither
five-character overlap pattern is present. -/
theorem unescapeValue_hit3 (t : Str)
    (hb1 : (['x', '3', 'b'] : Str).isPrefixOf t = false)
    (hb2 : (['x', '0', 'a'] : Str).isPrefixOf t = false) :
    unescapeValue ('\\' :: '\\' :: t) = '\\' :: unescapeValue t := by
  simp only [unescapeValue]
  have hcond2 : (['\\', 'x', '0', 'a'] : Str).isPrefixOf
      ('\\' :: replaceAll ['\\', 'x', '3', 'b'] [';'] t) = false := by
    rw [List.isPrefixOf_cons₂]
    cases hx : (['x', '0', 'a'] : Str).isPrefixOf (replaceAll ['\\', 'x', '3', 'b'] [';'] t) with
    | false => simp
    | true =>
      exact absurd
        (through_replaceAll ['\\', 'x', '3', 'b'] ';' ['x', '0', 'a'] (by decide) t hx)
        (by simp [hb2])
  rw [replaceAll_pass ['\\', 'x', '3', 'b'] [';'] '\\' _ (by simp [List.isPrefixOf_cons₂]),
    replaceAll_pass ['\\', 'x', '3', 'b'] [';'] '\\' _ (by simp [List.isPrefixOf_cons₂, hb1]),
    replaceAll_pass ['\\', 'x', '0', 'a'] ['\n'] '\\' _ (by simp [List.isPrefixOf_cons₂]),
    replaceAll_pass ['\\', 'x', '0', 'a'] ['\n'] '\\' _ hcond2,
    replaceAll_hit ['\\', '\\'] ['\\'] '\\' _ (by decide) (by simp [List.isPrefixOf_cons₂]),
    List.singleton_append]
  rfl

/-- Chained unescaping passes the head character through untouched when none
of the three markers fronts the string. -/
theorem unescapeValue_pass (c : Char) (rest : Str)
    (hp1 : (['\\', 'x', '3', 'b'] : Str).isPrefixOf (c :: rest) = false)
    (hp2 : (['\\', 'x', '0', 'a'] : Str).isPrefixOf (c :: rest) = false)
    (hp3 : (['\\', '\\'] : Str).isPrefixOf (c :: rest) = false) :
    unescapeValue (c :: rest) = c :: unescapeValue rest := by
  simp only [unescapeValue]
  rw [List.isPrefixOf_cons₂] at hp2 hp3
  have h2 : (['\\', 'x', '0', 'a'] : Str).isPrefixOf
      (c :: replaceAll ['\\', 'x', '3', 'b'] [';'] rest) = false := by
    rw [List.isPrefixOf_cons₂]
    cases hbc : (('\\' : Char) == c) with
    | false => rw [Bool.false_and]
    | true =>
      rw [hbc, Bool.true_and] at hp2
      rw [Bool.true_and]
      cases hx : (['x', '0', 'a'] : Str).isPrefixOf
          (replaceAll ['\\', 'x', '3', 'b'] [';'] rest) with
      | false => rfl
      | true =>
        exact absurd
          (through_replaceAll ['\\', 'x', '3', 'b'] ';' ['x', '0', 'a'] (by decide) rest hx)
          (by simp [hp2])
  have h3 : (['\\', '\\'] : Str).isPrefixOf
      (c :: replaceAll ['\\', 'x', '0', 'a'] ['\n']
        (replaceAll ['\\', 'x', '3', 'b'] [';'] rest)) = false := by
    rw [List.isPrefixOf_cons₂]
    cases hbc : (('\\' : Char) == c) with
    | false => rw [Bool.false_and]
    | true =>
      rw [hbc, Bool.true_and] at hp3
      rw [Bool.true_and]
      cases hx : (['\\'] : Str).isPrefixOf
          (replaceAll ['\\', 'x', '0', 'a'] ['\n']
            (replaceAll ['\\', 'x', '3', 'b'] [';'] rest)) with
      | false => rfl
      | true =>
        have hx1 := through_replaceAll ['\\', 'x', '0', 'a'] '\n' ['\\'] (by decide) _ hx
        have hx2 := through_replaceAll ['\\', 'x', '3', 'b'] ';' ['\\'] (by decide) rest hx1
        exact absurd hx2 (by simp [hp3])
  rw [replaceAll_pass ['\\', 'x', '3', 'b'] [';'] c rest hp1,
    replaceAll_pass ['\\', 'x', '0', 'a'] ['\n'] c _ h2,
    replaceAll_pass ['\\', '\\'] ['\\'] c _ h3]

/-- Bounded induction: away from the two five-character overlap patterns the
chained substitutions agree with the independent single pass. -/
theorem unescape_chain_eq_spec_bounded : ∀ (n : Nat) (s : Str), s.length ≤ n →
    containsSub ['\\', '\\', 'x', '3', 'b'] s = false →
    containsSub ['\\', '\\', 'x', '0', 'a'] s = false →
    unescapeValue s = unescapeValueSpec s := by
  intro n
  induction n with
  | zero =>
    intro s hlen _ _
    have hs : s = [] := List.eq_nil_of_length_eq_zero (Nat.le_zero.mp hlen)
    subst hs
    rfl
  | succ n ih =>
    intro s hlen h1 h2
    cases s with
    | nil => rfl
    | cons c rest =>
      simp only [List.length_cons] at hlen
      rw [unescapeValueSpec_cons]
      cases hq1 : (['\\', 'x', '3', 'b'] : Str).isPrefixOf (c :: rest) with
      | true =>
        rw [if_pos rfl, unescapeValue_hit1 c rest hq1]
        rw [ih _ (by rw [List.length_drop]; simp only [List.length_cons]; omega)
          (containsSub_drop _ 4 _ h1) (containsSub_drop _ 4 _ h2)]
      | false =>
        rw [if_neg Bool.false_ne_true]
        cases hq2 : (['\\', 'x', '0', 'a'] : Str).isPrefixOf (c :: rest) with
        | true =>
          rw [if_pos rfl]
          obtain ⟨t, ht⟩ := List.isPrefixOf_iff_prefix.mp hq2
          simp only [List.cons_append, List.nil_append] at ht
          injection ht with hc hrest
          subst hc
          subst hrest
          simp only [List.drop_succ_cons, List.drop_zero]
          rw [unescapeValue_hit2 t]
          rw [ih t (by simp only [List.length_cons] at hlen; omega)
            (containsSub_tail _ _ _ (containsSub_tail _ _ _ (containsSub_tail _ _ _
              (containsSub_tail _ _ _ h1))))
            (containsSub_tail _ _ _ (containsSub_tail _ _ _ (containsSub_tail _ _ _
              (containsSub_tail _ _ _ h2))))]
        | false =>
          rw [if_neg Bool.false_ne_true]
          cases hq3 : (['\\', '\\'] : Str).isPrefixOf (c :: rest) with
          | true =>
            rw [if_pos rfl]
            obtain ⟨t, ht⟩ := List.isPrefixOf_iff_prefix.mp hq3
            simp only [List.cons_append, List.nil_append] at ht
            injection ht with hc hrest
            subst hc
            subst hrest
            have hb1 : (['x', '3', 'b'] : Str).isPrefixOf t = false := by
              have hh := containsSub_head_false _ _ _ h1
              rw [List.isPrefixOf_cons₂, List.isPrefixOf_cons₂] at hh
              simpa using hh
            have hb2 : (['x', '0', 'a'] : Str).isPrefixOf t = false := by
              have hh := containsSub_head_false _ _ _ h2
              rw [List.isPrefixOf_cons₂, List.isPrefixOf_cons₂] at hh
              simpa using hh
            simp only [List.drop_succ_cons, List.drop_zero]
            rw [unescapeValue_hit3 t hb1 hb2]
            rw [ih t (by simp only [List.length_cons] at hlen; omega)
              (containsSub_tail _ _ _ (containsSub_tail _ _ _ h1))
              (containsSub_tail _ _ _ (containsSub_tail _ _ _ h2))]
          | false =>
            rw [if_neg Bool.false_ne_true]
            rw [unescapeValue_pass c rest hq1 hq2 hq3]
            rw [ih rest (by omega) (containsSub_tail _ _ _ h1) (containsSub_tail _ _ _ h2)]

/-- C3 counterexample: on the five-character input `"\\x3b"` — an escaped
backslash followed by the literal text `"x3b"` — the chained substitutions of
`unescapeValue` yield `"\;"`: the escaped-semicolon pass re-reads the second
half of the escaped backslash, so double-unescaping does occur; the
independent single pass yields `"\x3b"`. -/
theorem unescape_single_pass_counterexample :
    unescapeValue ['\\', '\\', 'x', '3', 'b'] = ['\\', ';'] ∧
    unescapeValueSpec ['\\', '\\', 'x', '3', 'b'] = ['\\', 'x', '3', 'b'] ∧
    ¬ unescapeValue ['\\', '\\', 'x', '3', 'b'] =
        unescapeValueSpec ['\\', '\\', 'x', '3', 'b'] := by
  decide

/-- C3 (amended): `unescapeValue` applies the three literal substitutions in
the fixed source order, chained; on every input that contains neither
`"\\x3b"` nor `"\\x0a"` (escaped backslash immediately followed by a marker
tail) the chained result coincides with the three substitutions decided
independently on the original text in a single left-to-right pass, so no
double-unescaping occurs there. -/
theorem unescape_single_pass_spec (s : Str)
    (h1 : containsSub ['\\', '\\', 'x', '3', 'b'] s = false)
    (h2 : containsSub ['\\', '\\', 'x', '0', 'a'] s = false) :
    unescapeValue s = unescapeValueSpec s :=
  unescape_chain_eq_spec_bounded s.length s (Nat.le_refl _) h1 h2

/-- C3 witness: the amended statement at a concrete overlap-free input. -/
theorem unescape_single_pass_spec_witness :
    containsSub ['\\', '\\', 'x', '3', 'b'] ['\\', 'x', '3', 'b', 'a', '\\', '\\'] = false ∧
    containsSub ['\\', '\\', 'x', '0', 'a'] ['\\', 'x', '3', 'b', 'a', '\\', '\\'] = false ∧
    unescapeValue ['\\', 'x', '3', 'b', 'a', '\\', '\\'] =
      unescapeValueSpec ['\\', 'x', '3', 'b', 'a', '\\', '\\'] :=
  ⟨by decide, by decide, unescape_single_pass_spec _ (by decide) (by decide)⟩

end OSC633
